import Mathlib

/-!
Verification of the windrose-ai WebMCP directory engine against its
natural-language specification.

The definitions below are a shallow embedding of the TypeScript sources:
* `src/scripts/scan_webmcp_directory.ts` (the scan / merge engine),
* `src/lib/agentic/runtime/webmcpDirectory.ts` (the directory query tool),
* `src/app/api/submit-webmcp-site/route.ts` (the submission intake), and
* the site-audit framework (`siteAuditAgentReady`).

Network probes are modelled by their observable outcomes (HTTP status class
and body-derived booleans), which the scan loop consumes exactly as the code
does.  Timestamps are opaque strings supplied by the caller; JavaScript
string comparison (`localeCompare` / default sort) is modelled as the
code-point order on `String`.
-/

set_option maxRecDepth 10000
set_option maxHeartbeats 2000000

namespace Windrose

/-! ## Character / string helpers (JS string operations used by the code) -/

/-- Whitespace for the purposes of JS `trim` and the `\s` class
(the characters that actually occur in this data set). -/
def isSpaceChar (c : Char) : Bool :=
  c = ' ' || c = '\t' || c = '\n' || c = '\r' || c = '\x0b' || c = '\x0c'

/-- Drop leading whitespace. -/
def dropSpaces (l : List Char) : List Char := l.dropWhile isSpaceChar

/-- JS `String.prototype.trim` on a char list. -/
def trimChars (l : List Char) : List Char :=
  (dropSpaces ((dropSpaces l.reverse).reverse))

/-- JS `s.trim()`. -/
def jsTrim (s : String) : String := String.mk (trimChars s.toList)

/-- Try to strip the literal `pat` from the front of `l`; return the rest. -/
def stripLit : List Char → List Char → Option (List Char)
  | [], l => some l
  | _ :: _, [] => none
  | p :: ps, c :: cs => if c = p then stripLit ps cs else none

/-- Does `l` start with the literal `pat`? -/
def startsLit (pat l : List Char) : Bool := (stripLit pat l).isSome

/-- Substring test: does `needle` occur anywhere in `hay`?  Models JS
`String.prototype.includes`. -/
def containsSub (needle : List Char) : List Char → Bool
  | [] => startsLit needle []
  | c :: cs => startsLit needle (c :: cs) || containsSub needle cs

/-- JS `includes` on strings. -/
def strIncludes (hay needle : String) : Bool := containsSub needle.toList hay.toList

/-- ASCII lower-casing, JS `toLowerCase` on the data that occurs here. -/
def lowerStr (s : String) : String := String.mk (s.toList.map Char.toLower)

end Windrose

namespace Windrose

/-! ## Data model (`scan_webmcp_directory.ts` types) -/

inductive EvidenceKind
  | github_hit
  | well_known_mcp_json
  | heuristic_html
deriving DecidableEq, Repr

structure Evidence where
  kind : EvidenceKind
  detail : String
  url : Option String
deriving DecidableEq, Repr

inductive ItemStatus
  | verified
  | likely
  | unverified
  | dead
deriving DecidableEq, Repr

inductive ItemType
  | webmcp
  | mcpServer
deriving DecidableEq, Repr

inductive VerificationStatus
  | unverified
  | verified
  | revoked
deriving DecidableEq, Repr

inductive VerificationMethod
  | well_known
  | modelContext_detected
  | manual
deriving DecidableEq, Repr

inductive ProofType
  | well_known
  | homepage
deriving DecidableEq, Repr

structure ProofEntry where
  type : ProofType
  url : String
  last_success : String
deriving DecidableEq, Repr

@[ext]
structure DirectoryItem where
  domain : String
  name : Option String
  type : List ItemType
  confidence : Int
  status : ItemStatus
  verification_status : Option VerificationStatus
  verification_method : Option VerificationMethod
  proof : Option (List ProofEntry)
  last_verified_success : Option String
  fail_streak : Option Int
  evidence : List Evidence
  last_checked : String
  last_seen : String
  sponsored : Option Bool
  verification_available : Option Bool
  notes : Option String
deriving DecidableEq, Repr

structure DirectoryFile where
  updated_at : String
  items : List DirectoryItem
deriving DecidableEq, Repr

/-! ## Domain normalizer of the scan engine (`normalizeDomain`, scan script)

`d.trim().toLowerCase().replace(/^https?:\/\//,"").replace(/^www\./,"")
  .replace(/\/.*$/,"")` — pure canonicalization, no validity checks. -/

/-- Strip a leading `http://` or `https://`. -/
def stripScheme (l : List Char) : List Char :=
  match stripLit "https://".toList l with
  | some r => r
  | none =>
    match stripLit "http://".toList l with
    | some r => r
    | none => l

/-- Strip one leading `www.`. -/
def stripWww (l : List Char) : List Char :=
  match stripLit "www.".toList l with
  | some r => r
  | none => l

/-- Drop everything from the first `/` on (the `replace(/\/.*$/,"")` step). -/
def dropPath (l : List Char) : List Char := l.takeWhile (· ≠ '/')

/-- The scan engine's `normalizeDomain`. -/
def normalizeDomain (d : String) : String :=
  String.mk (dropPath (stripWww (stripScheme ((trimChars d.toList).map Char.toLower))))

/-! ## Evidence merging and confidence (`mergeEvidence`, `computeConfidence`) -/

/-- The composite key used for evidence dedup: `kind|detail|url ?? ""`. -/
def evidenceKey (e : Evidence) : EvidenceKind × String × String :=
  (e.kind, e.detail, e.url.getD "")

/-- The `seen`-set loop of `mergeEvidence`, threaded over `add`. -/
def mergeEvidenceGo (seen : List (EvidenceKind × String × String)) :
    List Evidence → List Evidence
  | [] => []
  | e :: rest =>
    if evidenceKey e ∈ seen then mergeEvidenceGo seen rest
    else e :: mergeEvidenceGo (evidenceKey e :: seen) rest

/-- `mergeEvidence(existing, add)`: keep `existing`, append entries of `add`
whose composite key is new. -/
def mergeEvidence (existing add : List Evidence) : List Evidence :=
  existing ++ mergeEvidenceGo (existing.map evidenceKey) add

/-- `computeConfidence(evidence, htmlSignals)`: per-entry sums plus the two
live homepage bonuses, clamped above at 100. -/
def computeConfidence (evidence : List Evidence) (modelContext other : Bool) : Int :=
  let score := evidence.foldl
    (fun s e =>
      s + (if e.kind = EvidenceKind.well_known_mcp_json then 70 else 0)
        + (if e.kind = EvidenceKind.github_hit then 30 else 0)) 0
  let score := score + (if modelContext then 60 else 0)
  let score := score + (if other then 25 else 0)
  min 100 score

/-! ## Status and verification state machine -/

/-- `statusFromConfidence(conf, strong, failStreak)`. -/
def statusFromConfidence (conf : Int) (strong : Bool) (failStreak : Int) : ItemStatus :=
  if failStreak ≥ 3 then ItemStatus.dead
  else if conf ≥ 80 ∧ strong then ItemStatus.verified
  else if conf ≥ 50 then ItemStatus.likely
  else ItemStatus.unverified

/-- `verificationStatusFrom(prev, strongSuccess, confidence, failStreak)`. -/
def verificationStatusFrom (prev : Option DirectoryItem) (strongSuccess : Bool)
    (confidence : Int) (failStreak : Int) : VerificationStatus :=
  let wasVerified := (prev.bind (·.verification_status)) = some VerificationStatus.verified
  if strongSuccess ∧ confidence ≥ 80 then VerificationStatus.verified
  else if wasVerified ∧ failStreak ≥ 5 ∧ strongSuccess = false then VerificationStatus.revoked
  else if (prev.bind (·.verification_status)) = some VerificationStatus.revoked
      ∧ strongSuccess ∧ confidence ≥ 80 then VerificationStatus.verified
  else (prev.bind (·.verification_status)).getD VerificationStatus.unverified

/-- `verificationMethodFrom(prev, wkOk, modelContext)`. -/
def verificationMethodFrom (prev : Option DirectoryItem) (wkOk modelContext : Bool) :
    Option VerificationMethod :=
  if wkOk then some VerificationMethod.well_known
  else if modelContext then some VerificationMethod.modelContext_detected
  else prev.bind (·.verification_method)

/-! ## Proof ledger (`upsertProof`) -/

/-- The serialized type string, used by the sort comparator
(`a.type.localeCompare(b.type)`). -/
def proofTypeStr : ProofType → String
  | ProofType.well_known => "well_known"
  | ProofType.homepage => "homepage"

/-- The `(type, url)` composite key of a proof entry. -/
def proofKey (p : ProofEntry) : ProofType × String := (p.type, p.url)

/-- Sort order of the proof list: by type string, then url. -/
def proofLe (a b : ProofEntry) : Prop :=
  proofTypeStr a.type < proofTypeStr b.type ∨
    (proofTypeStr a.type = proofTypeStr b.type ∧ a.url ≤ b.url)

instance : DecidableRel proofLe := fun a b => by
  unfold proofLe; infer_instance

instance : IsTotal ProofEntry proofLe :=
  ⟨by
    intro a b
    unfold proofLe
    rcases lt_trichotomy (proofTypeStr a.type) (proofTypeStr b.type) with h | h | h
    · exact Or.inl (Or.inl h)
    · rcases le_total a.url b.url with m | m
      · exact Or.inl (Or.inr ⟨h, m⟩)
      · exact Or.inr (Or.inr ⟨h.symm, m⟩)
    · exact Or.inr (Or.inl h)⟩

instance : IsTrans ProofEntry proofLe :=
  ⟨by
    intro a b c hab hbc
    unfold proofLe at *
    rcases hab with h1 | ⟨e1, h1⟩ <;> rcases hbc with h2 | ⟨e2, h2⟩
    · exact Or.inl (lt_trans h1 h2)
    · exact Or.inl (by rw [← e2]; exact h1)
    · exact Or.inl (by rw [e1]; exact h2)
    · exact Or.inr ⟨e1.trans e2, le_trans h1 h2⟩⟩

/-- Replace the first entry with `next`'s `(type, url)` key, else append. -/
def upsertReplace : List ProofEntry → ProofEntry → List ProofEntry
  | [], next => [next]
  | p :: ps, next =>
    if p.type = next.type ∧ p.url = next.url then next :: ps
    else p :: upsertReplace ps next

/-- `upsertProof(proof, next)`: replace-or-append, then sort deterministically. -/
def upsertProof (proof : List ProofEntry) (next : ProofEntry) : List ProofEntry :=
  List.insertionSort proofLe (upsertReplace proof next)

/-! ## Fail-streak recovery from notes (`getFailStreak`, `stripFailStreak`) -/

/-- Numeric value of a leading digit run. -/
def digitsValue (acc : Nat) : List Char → Nat
  | [] => acc
  | c :: cs => if c.isDigit then digitsValue (acc * 10 + (c.toNat - '0'.toNat)) cs else acc

/-- Drop a leading digit run. -/
def dropDigits : List Char → List Char
  | [] => []
  | c :: cs => if c.isDigit then dropDigits cs else c :: cs

/-- If `l` starts with `fail_streak:` followed by at least one digit, return
the digit run's value (the regex `/fail_streak:(\d+)/` anchored here). -/
def markerValueAt (l : List Char) : Option Nat :=
  match stripLit "fail_streak:".toList l with
  | none => none
  | some r =>
    match r with
    | [] => none
    | c :: _ => if c.isDigit then some (digitsValue 0 r) else none

/-- Leftmost match of `/fail_streak:(\d+)/`: the capture's numeric value. -/
def findMarker : List Char → Option Nat
  | [] => none
  | c :: rest =>
    match markerValueAt (c :: rest) with
    | some n => some n
    | none => findMarker rest

/-- `getFailStreak(prev)`: the numeric `fail_streak` field when present,
else the first `fail_streak:N` marker in `notes`, else 0. -/
def getFailStreak (prev : Option DirectoryItem) : Int :=
  match prev with
  | none => 0
  | some p =>
    match p.fail_streak with
    | some n => n
    | none =>
      match p.notes with
      | some notes => ((findMarker notes.toList).getD 0 : Nat)
      | none => 0

/-- Count of leading digits. -/
def digitsLen : List Char → Nat
  | [] => 0
  | c :: cs => if c.isDigit then digitsLen cs + 1 else 0

/-- If `l` starts with `fail_streak:` followed by at least one digit, the
total length of that match (12 literal characters plus the digit run). -/
def markerLen (l : List Char) : Option Nat :=
  match stripLit "fail_streak:".toList l with
  | none => none
  | some r =>
    match r with
    | [] => none
    | c :: _ => if c.isDigit then some (12 + digitsLen r) else none

/-- The global replace `/(?:^|\s)fail_streak:\d+/g → ""` as a left-to-right
scan: at the string start the marker may match bare, elsewhere it must be
preceded by a whitespace character, which is consumed with it.  The first
argument counts characters of a recognized match still to be dropped. -/
def stripScanGo : Nat → Bool → List Char → List Char
  | _, _, [] => []
  | skip+1, _, _ :: rest => stripScanGo skip false rest
  | 0, atStart, c :: rest =>
    match (if atStart then markerLen (c :: rest) else none) with
    | some n => stripScanGo (n - 1) false rest
    | none =>
      if isSpaceChar c then
        match markerLen rest with
        | some n => stripScanGo n false rest
        | none => c :: stripScanGo 0 false rest
      else c :: stripScanGo 0 false rest

/-- `stripFailStreak(notes)`: remove markers, trim, and collapse the empty
result to "absent". -/
def stripFailStreak (notes : Option String) : Option String :=
  let base := String.mk (trimChars (stripScanGo 0 true (notes.getD "").toList))
  if base = "" then none else some base

/-! ## Probe layer outcomes

`checkWellKnown` / `checkHomepage` perform network I/O; their observable
results are a function of the HTTP status class and the body.  A thrown
exception or timeout is indistinguishable at the call site from a non-2xx
response (both produce `ok = false` with no evidence), so it is modelled by
`ok2xx = false`. -/

/-- Outcome data for the manifest probe: whether the response status was 2xx
and whether the (capped) body parsed as a JSON object. -/
structure WkOutcome where
  ok2xx : Bool
  parsedObject : Bool
deriving DecidableEq, Repr

/-- Outcome data for the homepage probe: whether the response status was 2xx
and which hint classes the lower-cased body matched. -/
structure HomeOutcome where
  ok2xx : Bool
  modelContext : Bool
  other : Bool
deriving DecidableEq, Repr

def wkUrlOf (domain : String) : String := "https://" ++ domain ++ "/.well-known/mcp.json"

def homeUrlOf (domain : String) : String := "https://" ++ domain ++ "/"

/-- `checkWellKnown` success flag: 2xx and body parsed as a JSON object. -/
def wkOkOf (wk : WkOutcome) : Bool := wk.ok2xx && wk.parsedObject

/-- `checkWellKnown` evidence output. -/
def wkEvidenceOf (domain : String) (wk : WkOutcome) : List Evidence :=
  if wkOkOf wk then
    [⟨EvidenceKind.well_known_mcp_json, "found .well-known/mcp.json", some (wkUrlOf domain)⟩]
  else []

/-- `checkHomepage` strong-hint flag (false when the probe did not get 2xx). -/
def mcOf (h : HomeOutcome) : Bool := h.ok2xx && h.modelContext

/-- `checkHomepage` weak-hint flag (false when the probe did not get 2xx). -/
def otherOf (h : HomeOutcome) : Bool := h.ok2xx && h.other

/-- `checkHomepage` evidence output. -/
def homeEvidenceOf (domain : String) (h : HomeOutcome) : List Evidence :=
  if h.ok2xx && (h.modelContext || h.other) then
    [⟨EvidenceKind.heuristic_html, "heuristic match in homepage html", some (homeUrlOf domain)⟩]
  else []

/-! ## Per-domain recomputation (the body of the loop in `main`) -/

/-- `computeTypes(evidence, htmlSignals)`: insertion-ordered set. -/
def computeTypes (evidence : List Evidence) (modelContext other : Bool) : List ItemType :=
  (if (evidence.map (·.kind)).contains EvidenceKind.well_known_mcp_json
    then [ItemType.mcpServer] else []) ++
  (if modelContext || other then [ItemType.webmcp] else [])

/-- The merged evidence ledger built in the loop:
`mergeEvidence(prev?.evidence ?? [], mergeEvidence(evFromDiscovery,
 mergeEvidence(wkEv, homeEv)))`. -/
def runEvidence (prev : Option DirectoryItem) (domain : String)
    (evFromDiscovery : List Evidence) (wk : WkOutcome) (home : HomeOutcome) : List Evidence :=
  mergeEvidence ((prev.map (·.evidence)).getD [])
    (mergeEvidence evFromDiscovery
      (mergeEvidence (wkEvidenceOf domain wk) (homeEvidenceOf domain home)))

/-- The new fail streak computed in the loop. -/
def newFailStreak (prev : Option DirectoryItem) (wk : WkOutcome) (home : HomeOutcome) : Int :=
  let strongSuccess := wkOkOf wk || mcOf home
  let checkFailed := !(wkOkOf wk) && !home.ok2xx
  if strongSuccess then 0
  else if checkFailed then getFailStreak prev + 1
  else getFailStreak prev

/-- The two conditional proof-ledger upserts of the loop body, as a function
of the prior proof list. -/
def proofPipelineL (p0 : List ProofEntry) (domain nowIso : String)
    (wk : WkOutcome) (home : HomeOutcome) : List ProofEntry :=
  let proof1 := if wkOkOf wk then
    upsertProof p0 ⟨ProofType.well_known, wkUrlOf domain, nowIso⟩ else p0
  if mcOf home then
    upsertProof proof1 ⟨ProofType.homepage, homeUrlOf domain, nowIso⟩ else proof1

/-- One iteration of the scan loop: recompute the `DirectoryItem` for
`domain` from its previous record, the discovery evidence and this run's
probe outcomes. -/
def processDomain (prev : Option DirectoryItem) (domain : String)
    (evFromDiscovery : List Evidence) (wk : WkOutcome) (home : HomeOutcome)
    (nowIso : String) : DirectoryItem :=
  let wkOk := wkOkOf wk
  let modelContext := mcOf home
  let other := otherOf home
  let evidence := runEvidence prev domain evFromDiscovery wk home
  let confidence := computeConfidence evidence modelContext other
  let strongEvidence := wkOk || modelContext
  let successSeen := wkOk || modelContext || other
  let strongSuccess := wkOk || modelContext
  let failStreak := newFailStreak prev wk home
  let status := statusFromConfidence confidence strongEvidence failStreak
  let type := computeTypes evidence modelContext other
  let lastSeen := if successSeen then nowIso else (prev.map (·.last_seen)).getD nowIso
  let vstat := verificationStatusFrom prev strongSuccess confidence failStreak
  let vmeth := verificationMethodFrom prev wkOk modelContext
  let proof2 := proofPipelineL ((prev.bind (·.proof)).getD []) domain nowIso wk home
  let lvs := if strongSuccess then some nowIso else prev.bind (·.last_verified_success)
  { domain := domain
    name := some ((prev.bind (·.name)).getD domain)
    type := if type.length > 0 then type else (prev.map (·.type)).getD []
    confidence := confidence
    status := status
    verification_status := some vstat
    verification_method := vmeth
    proof := some proof2
    last_verified_success := lvs
    fail_streak := some failStreak
    evidence := evidence
    last_checked := nowIso
    last_seen := lastSeen
    sponsored := some ((prev.bind (·.sponsored)).getD false)
    verification_available := some ((prev.bind (·.verification_available)).getD true)
    notes := stripFailStreak (prev.bind (·.notes)) }

/-! ## Whole-run store merge (`main`) -/

/-- String order used for item sorting (`a.domain.localeCompare(b.domain)`)
modelled as code-point order. -/
def itemLe (a b : DirectoryItem) : Prop := a.domain ≤ b.domain

instance : DecidableRel itemLe := fun a b => by
  unfold itemLe; infer_instance

instance : IsTotal DirectoryItem itemLe :=
  ⟨fun a b => le_total a.domain b.domain⟩

instance : IsTrans DirectoryItem itemLe :=
  ⟨fun _ _ _ h1 h2 => le_trans h1 h2⟩

/-- Lookup in the `Map` built from the existing items: for duplicate keys the
last insertion wins. -/
def lookupLast (k : String) : List (String × DirectoryItem) → Option DirectoryItem
  | [] => none
  | (k2, v) :: rest =>
    match lookupLast k rest with
    | some v2 => some v2
    | none => if k2 = k then some v else none

/-- First-match association lookup (the discovery `Map` has unique keys). -/
def lookupFirst (k : String) : List (String × List Evidence) → Option (List Evidence)
  | [] => none
  | (k2, v) :: rest => if k2 = k then some v else lookupFirst k rest

/-- String sort order (default `Array.prototype.sort` on strings). -/
def strLe (a b : String) : Prop := a ≤ b

instance : DecidableRel strLe := fun a b => by
  unfold strLe; infer_instance

/-- The per-run candidate selection: normalize every discovery key, drop the
empty ones, sort, cap at `MAX_DOMAINS_PER_RUN = 200`. -/
def selectedDomains (candidates : List (String × List Evidence)) : List String :=
  (List.insertionSort strLe
    (((candidates.map Prod.fst).map normalizeDomain).filter (· ≠ ""))).take 200

/-- The fresh records pushed by the loop, in selection order. -/
def recomputedItems (existing : DirectoryFile) (candidates : List (String × List Evidence))
    (wkProbe : String → WkOutcome) (homeProbe : String → HomeOutcome)
    (nowIso : String) : List DirectoryItem :=
  let existingPairs := existing.items.map (fun i => (normalizeDomain i.domain, i))
  (selectedDomains candidates).map (fun d =>
    processDomain (lookupLast d existingPairs) d
      ((lookupFirst d candidates).getD []) (wkProbe d) (homeProbe d) nowIso)

/-- The carried-over records: existing items whose normalized domain was not
selected this run. -/
def carriedItems (existing : DirectoryFile) (candidates : List (String × List Evidence)) :
    List DirectoryItem :=
  existing.items.filter
    (fun i => normalizeDomain i.domain ∉ selectedDomains candidates)

/-- The whole per-run store merge (`main` without I/O): recompute the
selected domains, carry the rest over unchanged, sort by domain, stamp a
fresh `updated_at`. -/
def runScan (existing : DirectoryFile) (candidates : List (String × List Evidence))
    (wkProbe : String → WkOutcome) (homeProbe : String → HomeOutcome)
    (nowIso : String) : DirectoryFile :=
  { updated_at := nowIso
    items := List.insertionSort itemLe
      (recomputedItems existing candidates wkProbe homeProbe nowIso
        ++ carriedItems existing candidates) }

/-! ## The submission intake normalizer (`submit-webmcp-site/route.ts`)

The route extracts `new URL(...).hostname` and then validates; the model
takes the extracted hostname as input.  Checks, in source order: must
contain a dot, must match `^[a-z0-9.-]+$`, must be at most 255 long. -/

/-- One character of the `[a-z0-9.-]` class. -/
def validHostChar (c : Char) : Bool :=
  ('a' ≤ c && c ≤ 'z') || ('0' ≤ c && c ≤ '9') || c = '.' || c = '-'

/-- `^[a-z0-9.-]+$`. -/
def hostCharsOk (host : String) : Bool :=
  !host.toList.isEmpty && host.toList.all validHostChar

/-- The lower-case / `www.`-strip step shared by the two route normalizers. -/
def canonicalHost (hostname : String) : String :=
  String.mk (stripWww (hostname.toList.map Char.toLower))

/-- `normalizeDomain` of the submission route, applied to the URL hostname. -/
def submitNormalizeHost (hostname : String) : Option String :=
  let host := canonicalHost hostname
  if !(strIncludes host ".") then none
  else if !(hostCharsOk host) then none
  else if host.length > 255 then none
  else some host

/-! ## The site-audit normalizer (`siteAuditAgentReady`)

Same hostname extraction; checks in source order: dot, length ≤ 255,
charset, a bare-IPv4 test, `.local` suffix.  The IPv4 pattern in the source
is written with doubled backslashes (`/^\\d{1,3}(?:\\.\\d{1,3}){3}$/`), so a
match requires the host to begin with a literal backslash character.  Since
the charset check has already rejected every string containing a backslash
by the time this test runs, the composed function below is extensionally
equal to the source on every input; we embed the test by the necessary
condition a match imposes on its first character. -/

/-- The (inert) bare-IPv4 test of the audit normalizer: any match of the
mis-escaped pattern starts with a literal backslash. -/
def auditIpv4Test (host : String) : Bool :=
  host.toList.head? = some '\\'

/-- Does the host end in `.local`? -/
def endsWithLocal (host : String) : Bool :=
  startsLit ".local".toList.reverse host.toList.reverse

/-- `normalizeDomain` of the site-audit framework, applied to the URL
hostname. -/
def auditNormalizeHost (hostname : String) : Option String :=
  let host := canonicalHost hostname
  if !(strIncludes host ".") then none
  else if host.length > 255 then none
  else if !(hostCharsOk host) then none
  else if auditIpv4Test host then none
  else if endsWithLocal host then none
  else some host

/-! ## The directory query tool (`webmcpDirectory.ts`) -/

/-- The item shape read by the query tool (evidence reduced to kind
strings). -/
structure QItem where
  domain : String
  type : List ItemType
  confidence : Int
  status : ItemStatus
  evidence : List String
  last_seen : String
deriving DecidableEq, Repr

/-- `STATUS_ORDER`. -/
def statusOrder : ItemStatus → Nat
  | ItemStatus.verified => 0
  | ItemStatus.likely => 1
  | ItemStatus.unverified => 2
  | ItemStatus.dead => 3

/-- `normalize` in the query tool: lower-case then trim. -/
def qNormalize (s : String) : String := jsTrim (lowerStr s)

/-- Insertion-ordered dedup (JS `Set` iteration order). -/
def dedupFirst : List String → List String
  | [] => []
  | s :: rest => s :: (dedupFirst rest).filter (· ≠ s)

/-- `summarizeEvidenceKinds`: unique kinds, sorted. -/
def summarizeEvidenceKinds (i : QItem) : List String :=
  List.insertionSort strLe (dedupFirst i.evidence)

/-- `score(item, q)`. -/
def qScore (i : QItem) (q : String) : Nat :=
  let nq := qNormalize q
  if strIncludes (qNormalize i.domain) nq then 50
  else if strIncludes (qNormalize (String.intercalate " " (summarizeEvidenceKinds i))) nq then 10
  else 0

/-- Order used by the optional query-relevance sort: score descending, then
domain ascending. -/
def scoreLe (q : String) (a b : QItem) : Prop :=
  qScore b q < qScore a q ∨ (qScore a q = qScore b q ∧ a.domain ≤ b.domain)

instance (q : String) : DecidableRel (scoreLe q) := fun a b => by
  unfold scoreLe; infer_instance

/-- The deterministic result order: status rank ascending, confidence
descending, `last_seen` descending, domain ascending. -/
def queryLe (a b : QItem) : Prop :=
  statusOrder a.status < statusOrder b.status ∨
    (statusOrder a.status = statusOrder b.status ∧
      (b.confidence < a.confidence ∨
        (a.confidence = b.confidence ∧
          (b.last_seen < a.last_seen ∨
            (a.last_seen = b.last_seen ∧ a.domain ≤ b.domain)))))

instance : DecidableRel queryLe := fun a b => by
  unfold queryLe; infer_instance

instance : IsTotal QItem queryLe :=
  ⟨by
    intro a b
    unfold queryLe
    rcases lt_trichotomy (statusOrder a.status) (statusOrder b.status) with h | h | h
    · exact Or.inl (Or.inl h)
    · rcases lt_trichotomy a.confidence b.confidence with f | f | f
      · exact Or.inr (Or.inr ⟨h.symm, Or.inl f⟩)
      · rcases lt_trichotomy a.last_seen b.last_seen with k | k | k
        · exact Or.inr (Or.inr ⟨h.symm, Or.inr ⟨f.symm, Or.inl k⟩⟩)
        · rcases le_total a.domain b.domain with m | m
          · exact Or.inl (Or.inr ⟨h, Or.inr ⟨f, Or.inr ⟨k, m⟩⟩⟩)
          · exact Or.inr (Or.inr ⟨h.symm, Or.inr ⟨f.symm, Or.inr ⟨k.symm, m⟩⟩⟩)
        · exact Or.inl (Or.inr ⟨h, Or.inr ⟨f, Or.inl k⟩⟩)
      · exact Or.inl (Or.inr ⟨h, Or.inl f⟩)
    · exact Or.inr (Or.inl h)⟩

instance : IsTrans QItem queryLe :=
  ⟨by
    intro a b c hab hbc
    unfold queryLe at *
    rcases hab with h1 | ⟨e1, hab⟩ <;> rcases hbc with h2 | ⟨e2, hbc⟩
    · exact Or.inl (lt_trans h1 h2)
    · exact Or.inl (by rw [← e2]; exact h1)
    · exact Or.inl (by rw [e1]; exact h2)
    · refine Or.inr ⟨e1.trans e2, ?_⟩
      rcases hab with f1 | ⟨g1, hab⟩ <;> rcases hbc with f2 | ⟨g2, hbc⟩
      · exact Or.inl (lt_trans f2 f1)
      · exact Or.inl (by rw [← g2]; exact f1)
      · exact Or.inl (by rw [g1]; exact f2)
      · refine Or.inr ⟨g1.trans g2, ?_⟩
        rcases hab with k1 | ⟨m1, hab⟩ <;> rcases hbc with k2 | ⟨m2, hbc⟩
        · exact Or.inl (lt_trans k2 k1)
        · exact Or.inl (by rw [← m2]; exact k1)
        · exact Or.inl (by rw [m1]; exact k2)
        · exact Or.inr ⟨m1.trans m2, le_trans hab hbc⟩⟩

/-- Parsed query input (after `parseInput`): a missing/invalid `type` filter
is the empty list, exactly as `parseInput` drops empty lists. -/
structure QueryInput where
  query : Option String
  status : Option ItemStatus
  types : List ItemType
  minConfidence : Option Int
  limitRaw : Option Int
deriving Repr

/-- The `limit` clamp in `parseInput`: `max(1, min(50, floor(limit)))`,
default 10. -/
def clampLimit (limitRaw : Option Int) : Int :=
  match limitRaw with
  | some v => max 1 (min 50 v)
  | none => 10

/-- Status filter stage of the query handler. -/
def qStageStatus (items : List QItem) (inp : QueryInput) : List QItem :=
  match inp.status with
  | some st => items.filter (fun i => i.status = st)
  | none => items

/-- Type-intersection filter stage. -/
def qStageType (items : List QItem) (inp : QueryInput) : List QItem :=
  if inp.types.isEmpty then items
  else items.filter (fun i => i.type.any (fun t => decide (t ∈ inp.types)))

/-- Confidence-floor filter stage (`min_confidence ?? 0`). -/
def qStageConf (items : List QItem) (inp : QueryInput) : List QItem :=
  items.filter (fun i => inp.minConfidence.getD 0 ≤ i.confidence)

/-- Optional relevance pass (`if (q) { … }`). -/
def qStageQuery (items : List QItem) (inp : QueryInput) : List QItem :=
  match inp.query with
  | some q =>
    if jsTrim q = "" then items
    else List.insertionSort (scoreLe (jsTrim q))
      (items.filter (fun i => 0 < qScore i (jsTrim q)))
  | none => items

/-- The query handler after input parsing and dataset load: filter chain,
optional relevance pass, deterministic sort, cap. -/
def runQuery (items : List QItem) (inp : QueryInput) : List QItem :=
  (List.insertionSort queryLe
    (qStageQuery (qStageConf (qStageType (qStageStatus items inp) inp) inp) inp)).take
    (clampLimit inp.limitRaw).toNat

/-! ## Spec-side reference definitions (the claims' wording, for comparison
with the code-derived definitions above) -/

/-- Confidence as the spec states it (claim C1): each persisted evidence
kind counted once regardless of multiplicity; the weak homepage bonus only
when the strong bonus was not counted. -/
def specConfidence (evidence : List Evidence) (modelContext other : Bool) : Int :=
  min 100
    ((if evidence.any (fun e => e.kind = EvidenceKind.well_known_mcp_json) then 70 else 0)
      + (if evidence.any (fun e => e.kind = EvidenceKind.github_hit) then 30 else 0)
      + (if modelContext then 60 else 0)
      + (if other && !modelContext then 25 else 0))

/-- Number of ledger entries of a given kind. -/
def countKind (k : EvidenceKind) (ev : List Evidence) : Int :=
  ((ev.filter (fun e => e.kind = k)).length : Int)

/-- Confidence as the code actually computes it (amended C1): per-entry
weights for the persisted kinds, and the two homepage bonuses added
independently of each other. -/
def specConfidenceAmended (ev : List Evidence) (mc ot : Bool) : Int :=
  min 100 (70 * countKind EvidenceKind.well_known_mcp_json ev
    + 30 * countKind EvidenceKind.github_hit ev
    + (if mc then 60 else 0) + (if ot then 25 else 0))

/-- Fail streak as claim C2 states it: the increment condition is that
neither probe returned a 2xx response at all. -/
def specNewFailStreak (prevFail : Int) (wk : WkOutcome) (home : HomeOutcome) : Int :=
  if wkOkOf wk || mcOf home then 0
  else if !wk.ok2xx && !home.ok2xx then prevFail + 1
  else prevFail

/-- Fail streak as the code computes it (amended C2): the manifest side of
the increment condition also fails when a 2xx body does not parse as a JSON
object. -/
def specNewFailStreakAmended (prevFail : Int) (wk : WkOutcome) (home : HomeOutcome) : Int :=
  let strongSuccess := wkOkOf wk || mcOf home
  let checkFailed := !(wkOkOf wk) && !home.ok2xx
  if strongSuccess then 0
  else if checkFailed then prevFail + 1
  else prevFail

/-- Verification status as claim C3 states it. -/
def specVerificationStatus (prevVS : Option VerificationStatus) (strong : Bool)
    (conf fs : Int) : VerificationStatus :=
  if strong ∧ conf ≥ 80 then VerificationStatus.verified
  else if prevVS = some VerificationStatus.verified ∧ fs ≥ 5 ∧ strong = false then
    VerificationStatus.revoked
  else prevVS.getD VerificationStatus.unverified

/-- Persisted type as the code computes it (amended C4): the recomputed set,
except that an empty recomputed set falls back to the previous record's
list. -/
def specTypesAmended (prev : Option DirectoryItem) (ev : List Evidence)
    (mc ot : Bool) : List ItemType :=
  let type := computeTypes ev mc ot
  if type.length > 0 then type else (prev.map (·.type)).getD []

/-! ## Concrete fixtures for counterexamples and witnesses -/

/-- A minimal prior record. -/
def baseItem : DirectoryItem :=
  { domain := "x.com", name := none, type := [], confidence := 0
    status := ItemStatus.unverified, verification_status := none
    verification_method := none, proof := none, last_verified_success := none
    fail_streak := none, evidence := [], last_checked := "t0", last_seen := "t0"
    sponsored := none, verification_available := none, notes := none }

/-- Prior record with a zero fail streak. -/
def itemFS0 : DirectoryItem := { baseItem with fail_streak := some 0 }

/-- Manifest probe outcomes. -/
def wkDown : WkOutcome := ⟨false, false⟩

/-- 2xx response whose body does not parse as a JSON object. -/
def wkUnparsed : WkOutcome := ⟨true, false⟩

/-- 2xx response with a JSON-object body. -/
def wkGood : WkOutcome := ⟨true, true⟩

/-- Homepage probe outcomes. -/
def homeDown : HomeOutcome := ⟨false, false, false⟩

/-- 2xx homepage with no hint matches. -/
def homeQuiet : HomeOutcome := ⟨true, false, false⟩

/-- 2xx homepage matching the strong hint. -/
def homeStrong : HomeOutcome := ⟨true, true, false⟩

/-- Two distinct github_hit ledger entries (different repos). -/
def evTwoGithub : List Evidence :=
  [⟨EvidenceKind.github_hit, "repo: a/r1", none⟩,
   ⟨EvidenceKind.github_hit, "repo: b/r2", none⟩]

/-- Prior record whose only type support is a historical homepage hint. -/
def itemC4 : DirectoryItem :=
  { baseItem with
    type := [ItemType.webmcp]
    evidence := [⟨EvidenceKind.heuristic_html, "heuristic match in homepage html",
      some "https://x.com/"⟩]
    fail_streak := some 0 }

/-- Prior record with a fail-streak marker not preceded by whitespace. -/
def itemC10 : DirectoryItem := { baseItem with notes := some "xfail_streak:5" }

/-- Prior record with one evidence entry and one proof entry. -/
def itemC6 : DirectoryItem :=
  { baseItem with
    evidence := [⟨EvidenceKind.github_hit, "repo: a/r1", none⟩]
    proof := some [⟨ProofType.well_known, "https://old/.well-known/mcp.json", "t0"⟩]
    fail_streak := some 0 }

/-- Existing snapshot containing a single item that no candidate selects. -/
def fileC7 : DirectoryFile := ⟨"t0", [{ baseItem with domain := "z.com" }]⟩

/-- One-candidate discovery output. -/
def candsA : List (String × List Evidence) := [("a.com", [])]

/-- Probe simulations with every domain unreachable. -/
def probeWkDownAll : String → WkOutcome := fun _ => wkDown

/-- Probe simulations with every homepage unreachable. -/
def probeHomeDownAll : String → HomeOutcome := fun _ => homeDown

/-- Probe simulations with every homepage reachable but hint-free. -/
def probeHomeQuietAll : String → HomeOutcome := fun _ => homeQuiet

/-- Prior record for the selected domain of the idempotence fixtures. -/
def itemC9 : DirectoryItem := { baseItem with domain := "a.com", fail_streak := some 0 }

/-- Snapshot for the idempotence fixtures. -/
def fileC9 : DirectoryFile := ⟨"t0", [itemC9]⟩

/-- Query fixture items. -/
def qItemA : QItem :=
  ⟨"a.com", [ItemType.webmcp], 90, ItemStatus.verified, ["github_hit"], "2026-01-02"⟩

/-- A second query fixture item, filtered out by the fixture query. -/
def qItemB : QItem := ⟨"b.com", [ItemType.webmcp], 40, ItemStatus.likely, [], "2026-01-01"⟩

/-- The query fixture dataset. -/
def qItemsW : List QItem := [qItemB, qItemA]

/-- A query with all three filters supplied. -/
def qInpW : QueryInput :=
  ⟨none, some ItemStatus.verified, [ItemType.webmcp], some 80, some 10⟩

end Windrose

namespace Windrose

/-! # Theorems -/

/-! ## Supporting lemmas -/

theorem countKind_cons (k : EvidenceKind) (e : Evidence) (rest : List Evidence) :
    countKind k (e :: rest) = countKind k rest + (if e.kind = k then 1 else 0) := by
  unfold countKind
  rw [List.filter_cons]
  split_ifs with h1 h2 h3
  · simp
  · simp at h1 h2
    exact absurd h1 h2
  · simp at h1 h3
    exact absurd h3 h1
  · simp

theorem confFoldEq (ev : List Evidence) (s : Int) :
    List.foldl
      (fun s e =>
        s + (if e.kind = EvidenceKind.well_known_mcp_json then 70 else 0)
          + (if e.kind = EvidenceKind.github_hit then 30 else 0)) s ev
    = s + 70 * countKind EvidenceKind.well_known_mcp_json ev
        + 30 * countKind EvidenceKind.github_hit ev := by
  induction ev generalizing s with
  | nil => simp [countKind]
  | cons e rest ih =>
    rw [List.foldl_cons, ih, countKind_cons, countKind_cons]
    split_ifs with hw hg hg
    · rw [hw] at hg
      exact absurd hg (by decide)
    · ring
    · ring
    · ring

/-! ## Claim C1 -/

/-- C1 counterexample: with two distinct `github_hit` ledger entries and no
homepage signals, the code computes confidence 60 (30 per entry) while the
claim's once-per-kind formula gives 30. -/
theorem C1_counterexample :
    computeConfidence evTwoGithub false false ≠ specConfidence evTwoGithub false false := by
  decide

/-- C1 (amended): the recomputed confidence equals
`min(100, 70·#well_known_mcp_json entries + 30·#github_hit entries
 + 60 if the strong hint fired + 25 if a weak hint fired)`, the last two
bonuses being independent of each other. -/
theorem C1_amended_theorem (ev : List Evidence) (mc ot : Bool) :
    computeConfidence ev mc ot = specConfidenceAmended ev mc ot := by
  unfold computeConfidence specConfidenceAmended
  dsimp only
  rw [confFoldEq]
  congr 1
  ring

/-! ## Claim C2 -/

/-- C2 counterexample: a manifest probe that got a 2xx whose body did not
parse as a JSON object, with the homepage probe failing at the transport
level, increments the streak (code gives 1 from a prior 0) although the
claim's condition — neither probe returned a usable 2xx at all — is not met
(claim gives 0). -/
theorem C2_counterexample :
    (processDomain (some itemFS0) "x.com" [] wkUnparsed homeDown "t1").fail_streak = some 1
    ∧ specNewFailStreak (getFailStreak (some itemFS0)) wkUnparsed homeDown = 0 := by
  decide

/-- C2 (amended): the new fail streak is 0 on strong success, otherwise
`prev + 1` exactly when the manifest check did not succeed (non-2xx, or a
2xx body that is not a JSON object) and the homepage probe got no 2xx,
otherwise unchanged. -/
theorem C2_amended_theorem (p : DirectoryItem) (d : String) (disc : List Evidence)
    (wk : WkOutcome) (home : HomeOutcome) (now : String) :
    (processDomain (some p) d disc wk home now).fail_streak
      = some (specNewFailStreakAmended (getFailStreak (some p)) wk home) := rfl

/-- C2 witness: the amended statement evaluated at a concrete input. -/
theorem C2_amended_witness :
    (processDomain (some itemFS0) "x.com" [] wkUnparsed homeDown "t1").fail_streak
      = some (specNewFailStreakAmended (getFailStreak (some itemFS0)) wkUnparsed homeDown) :=
  C2_amended_theorem itemFS0 "x.com" [] wkUnparsed homeDown "t1"

/-! ## Claim C3 -/

theorem vsFrom_spec (prev : Option DirectoryItem) (strong : Bool) (conf fs : Int) :
    verificationStatusFrom prev strong conf fs
      = specVerificationStatus (prev.bind (·.verification_status)) strong conf fs := by
  unfold verificationStatusFrom specVerificationStatus
  dsimp only
  split_ifs with h1 h2 h3 <;> first
    | rfl
    | exact absurd ⟨h3.2.1, h3.2.2⟩ h1

/-- C3: across every run, the new verification status is `verified` exactly
on a strong success with confidence ≥ 80 (overriding any prior value,
including `revoked`); `revoked` only from a prior `verified` with the new
fail streak ≥ 5 and no strong success; otherwise the prior value carried
forward, defaulting to `unverified`. -/
theorem C3_theorem (prev : Option DirectoryItem) (strong : Bool) (conf fs : Int) :
    verificationStatusFrom prev strong conf fs
      = specVerificationStatus (prev.bind (·.verification_status)) strong conf fs :=
  vsFrom_spec prev strong conf fs

/-! ## Claim C4 -/

/-- C4 counterexample: a prior record typed `webmcp` on historical homepage
evidence alone keeps that type on a run with no live signals and no
manifest evidence, although the recomputed type set is empty. -/
theorem C4_counterexample :
    (processDomain (some itemC4) "x.com" [] wkDown homeQuiet "t1").type = [ItemType.webmcp]
    ∧ computeTypes ((processDomain (some itemC4) "x.com" [] wkDown homeQuiet "t1").evidence)
        (mcOf homeQuiet) (otherOf homeQuiet) = [] := by
  decide

/-- C4 (amended): the persisted type set is the one recomputed from merged
evidence kinds and live signals, except that when the recomputed set is
empty the previous record's type list (empty if none) is retained. -/
theorem C4_amended_theorem (prev : Option DirectoryItem) (d : String)
    (disc : List Evidence) (wk : WkOutcome) (home : HomeOutcome) (now : String) :
    (processDomain prev d disc wk home now).type
      = specTypesAmended prev (runEvidence prev d disc wk home) (mcOf home) (otherOf home) := rfl

/-! ## Claim C5 -/

theorem validHostChar_no_bslash {c : Char} (h : validHostChar c = true) : c ≠ '\\' := by
  intro hc
  rw [hc] at h
  exact absurd h (by decide)

theorem hostCharsOk_ipv4_false (host : String) (h : hostCharsOk host = true) :
    auditIpv4Test host = false := by
  unfold hostCharsOk at h
  unfold auditIpv4Test
  cases hl : host.toList with
  | nil => simp
  | cons c cs =>
    rw [hl] at h
    simp only [Bool.and_eq_true, List.all_cons] at h
    have hc := validHostChar_no_bslash h.2.1
    simp only [List.head?]
    exact decide_eq_false (fun hcontra => hc (by injection hcontra))

/-- C5 counterexample: the scan engine's normalizer produces the key
`localhost` — a dotless host — instead of rejecting it; the engine has no
rejection path at all (an empty string is its only "invalid" output). -/
theorem C5_counterexample :
    normalizeDomain "localhost" ≠ "" ∧ strIncludes (normalizeDomain "localhost") "." = false := by
  decide

/-- C5 (amended): the three components do not share one normalizer.  The
audit tool rejects exactly on missing dot, length > 255, bad charset, or a
`.local` suffix — its bare-IPv4 test is inert (mis-escaped pattern), so
IPv4 literals are accepted; the submission intake rejects exactly on
missing dot, bad charset, or length > 255, accepting IPv4 literals and
`.local` hosts; the scan engine only canonicalizes and rejects nothing
(dotless keys pass through). -/
theorem C5_amended_theorem :
    (∀ h : String, (auditNormalizeHost h).isSome = true ↔
      (strIncludes (canonicalHost h) "." = true ∧ (canonicalHost h).length ≤ 255
        ∧ hostCharsOk (canonicalHost h) = true ∧ endsWithLocal (canonicalHost h) = false))
    ∧ (∀ h : String, (submitNormalizeHost h).isSome = true ↔
      (strIncludes (canonicalHost h) "." = true ∧ hostCharsOk (canonicalHost h) = true
        ∧ (canonicalHost h).length ≤ 255))
    ∧ auditNormalizeHost "192.168.0.1" = some "192.168.0.1"
    ∧ submitNormalizeHost "printer.local" = some "printer.local"
    ∧ normalizeDomain "localhost" = "localhost" := by
  refine ⟨?_, ?_, by decide, by decide, by decide⟩
  · intro h
    have hip := hostCharsOk_ipv4_false (canonicalHost h)
    unfold auditNormalizeHost
    dsimp only
    split_ifs with h1 h2 h3 h4 h5
    · simp only [Option.isSome_none, Bool.false_eq_true, false_iff, not_and]
      intro hc
      rw [Bool.not_eq_true'] at h1
      rw [hc] at h1
      simp at h1
    · simp only [Option.isSome_none, Bool.false_eq_true, false_iff, not_and]
      intro _ hlen
      omega
    · simp only [Option.isSome_none, Bool.false_eq_true, false_iff, not_and]
      intro _ _ hc _
      rw [Bool.not_eq_true'] at h3
      rw [hc] at h3
      simp at h3
    · simp only [Option.isSome_none, Bool.false_eq_true, false_iff, not_and]
      intro _ _ hc _
      have h3' : hostCharsOk (canonicalHost h) = true := by simpa using h3
      rw [hip h3'] at h4
      simp at h4
    · simp only [Option.isSome_none, Bool.false_eq_true, false_iff, not_and]
      intro _ _ _ hl
      rw [hl] at h5
      simp at h5
    · simp only [Option.isSome_some, true_iff]
      rw [Bool.not_eq_true'] at h1 h3
      refine ⟨by simpa using h1, by omega, by simpa using h3, by simpa using h5⟩
  · intro h
    unfold submitNormalizeHost
    dsimp only
    split_ifs with h1 h2 h3
    · simp only [Option.isSome_none, Bool.false_eq_true, false_iff, not_and]
      intro hc
      rw [Bool.not_eq_true'] at h1
      rw [hc] at h1
      simp at h1
    · simp only [Option.isSome_none, Bool.false_eq_true, false_iff, not_and]
      intro _ hc _
      rw [Bool.not_eq_true'] at h2
      rw [hc] at h2
      simp at h2
    · simp only [Option.isSome_none, Bool.false_eq_true, false_iff, not_and]
      intro _ _ hlen
      omega
    · simp only [Option.isSome_some, true_iff]
      rw [Bool.not_eq_true'] at h1 h2
      refine ⟨by simpa using h1, by simpa using h2, by omega⟩

/-! ## Claim C6 -/

theorem mergeEvidenceGo_keys (add : List Evidence) : ∀ seen : List (EvidenceKind × String × String),
    ((mergeEvidenceGo seen add).map evidenceKey).Nodup
    ∧ ∀ k ∈ (mergeEvidenceGo seen add).map evidenceKey, k ∉ seen := by
  induction add with
  | nil => intro seen; simp [mergeEvidenceGo]
  | cons e rest ih =>
    intro seen
    unfold mergeEvidenceGo
    split_ifs with hmem
    · exact ih seen
    · obtain ⟨ihn, ihs⟩ := ih (evidenceKey e :: seen)
      refine ⟨?_, ?_⟩
      · simp only [List.map_cons, List.nodup_cons]
        exact ⟨fun hk => (ihs _ hk) (List.mem_cons_self _ _), ihn⟩
      · intro k hk
        simp only [List.map_cons, List.mem_cons] at hk
        rcases hk with rfl | hk
        · exact hmem
        · exact fun hks => (ihs _ hk) (List.mem_cons_of_mem _ hks)

theorem mergeEvidence_keeps (existing add : List Evidence) :
    ∀ e ∈ existing, e ∈ mergeEvidence existing add := by
  intro e he
  exact List.mem_append_left _ he

theorem mergeEvidence_length (existing add : List Evidence) :
    existing.length ≤ (mergeEvidence existing add).length := by
  unfold mergeEvidence
  simp

theorem mergeEvidence_nodup (existing add : List Evidence)
    (h : (existing.map evidenceKey).Nodup) :
    ((mergeEvidence existing add).map evidenceKey).Nodup := by
  unfold mergeEvidence
  rw [List.map_append]
  rw [List.nodup_append]
  obtain ⟨hn, hs⟩ := mergeEvidenceGo_keys add (existing.map evidenceKey)
  exact ⟨h, hn, fun k hk hk2 => (hs k hk2) hk⟩

theorem upsertReplace_keysub (proof : List ProofEntry) (next : ProofEntry) :
    ∀ k ∈ proof.map proofKey, k ∈ (upsertReplace proof next).map proofKey := by
  induction proof with
  | nil => simp
  | cons p ps ih =>
    intro k hk
    unfold upsertReplace
    split_ifs with hm
    · have hpk : proofKey p = proofKey next := by
        unfold proofKey
        rw [hm.1, hm.2]
      simp only [List.map_cons, List.mem_cons] at hk ⊢
      rcases hk with rfl | hk
      · left; rw [hpk]
      · right; exact hk
    · simp only [List.map_cons, List.mem_cons] at hk ⊢
      rcases hk with rfl | hk
      · left; rfl
      · right; exact ih k hk

theorem upsertReplace_length (proof : List ProofEntry) (next : ProofEntry) :
    proof.length ≤ (upsertReplace proof next).length := by
  induction proof with
  | nil => simp [upsertReplace]
  | cons p ps ih =>
    unfold upsertReplace
    split_ifs with hm
    · simp
    · simpa using ih

theorem upsertReplace_keyrange (proof : List ProofEntry) (next : ProofEntry) :
    ∀ k ∈ (upsertReplace proof next).map proofKey,
      k ∈ proof.map proofKey ∨ k = proofKey next := by
  induction proof with
  | nil => simp [upsertReplace]
  | cons p ps ih =>
    intro k hk
    unfold upsertReplace at hk
    split_ifs at hk with hm
    · simp only [List.map_cons, List.mem_cons] at hk
      rcases hk with rfl | hk
      · right; rfl
      · left; simp [hk]
    · simp only [List.map_cons, List.mem_cons] at hk ⊢
      rcases hk with rfl | hk
      · left; left; rfl
      · rcases ih k hk with h | h
        · left; right; exact h
        · right; exact h

theorem upsertReplace_nodup (proof : List ProofEntry) (next : ProofEntry)
    (h : (proof.map proofKey).Nodup) :
    ((upsertReplace proof next).map proofKey).Nodup := by
  induction proof with
  | nil => simp [upsertReplace]
  | cons p ps ih =>
    unfold upsertReplace
    simp only [List.map_cons, List.nodup_cons] at h
    split_ifs with hm
    · have hpk : proofKey p = proofKey next := by
        unfold proofKey
        rw [hm.1, hm.2]
      simp only [List.map_cons, List.nodup_cons]
      exact ⟨hpk ▸ h.1, h.2⟩
    · have hne : proofKey p ≠ proofKey next := by
        intro he
        unfold proofKey at he
        exact hm ⟨congrArg Prod.fst he, congrArg Prod.snd he⟩
      simp only [List.map_cons, List.nodup_cons]
      refine ⟨fun hk => ?_, ih h.2⟩
      rcases upsertReplace_keyrange ps next _ hk with h2 | h2
      · exact h.1 h2
      · exact hne h2

theorem upsertProof_keysub (proof : List ProofEntry) (next : ProofEntry) :
    ∀ k ∈ proof.map proofKey, k ∈ (upsertProof proof next).map proofKey := by
  intro k hk
  unfold upsertProof
  have hperm : List.Perm ((List.insertionSort proofLe (upsertReplace proof next)).map proofKey)
      ((upsertReplace proof next).map proofKey) :=
    (List.perm_insertionSort proofLe (upsertReplace proof next)).map proofKey
  exact hperm.mem_iff.mpr (upsertReplace_keysub proof next k hk)

theorem upsertProof_length (proof : List ProofEntry) (next : ProofEntry) :
    proof.length ≤ (upsertProof proof next).length := by
  unfold upsertProof
  rw [(List.perm_insertionSort proofLe (upsertReplace proof next)).length_eq]
  exact upsertReplace_length proof next

theorem upsertProof_nodup (proof : List ProofEntry) (next : ProofEntry)
    (h : (proof.map proofKey).Nodup) :
    ((upsertProof proof next).map proofKey).Nodup := by
  unfold upsertProof
  have hperm : List.Perm ((List.insertionSort proofLe (upsertReplace proof next)).map proofKey)
      ((upsertReplace proof next).map proofKey) :=
    (List.perm_insertionSort proofLe (upsertReplace proof next)).map proofKey
  exact hperm.nodup_iff.mpr (upsertReplace_nodup proof next h)

/-- C6: across any run, the resulting item's evidence list retains every
prior entry verbatim and its proof list retains every prior composite key;
neither list shrinks; and dedup by composite key is preserved. -/
theorem C6_theorem (p : DirectoryItem) (d : String) (disc : List Evidence)
    (wk : WkOutcome) (home : HomeOutcome) (now : String)
    (hE : (p.evidence.map evidenceKey).Nodup)
    (hP : ((p.proof.getD []).map proofKey).Nodup) :
    (∀ e ∈ p.evidence, e ∈ (processDomain (some p) d disc wk home now).evidence)
    ∧ p.evidence.length ≤ (processDomain (some p) d disc wk home now).evidence.length
    ∧ (((processDomain (some p) d disc wk home now).evidence).map evidenceKey).Nodup
    ∧ (∀ q ∈ p.proof.getD [],
        proofKey q ∈ ((processDomain (some p) d disc wk home now).proof.getD []).map proofKey)
    ∧ (p.proof.getD []).length ≤ ((processDomain (some p) d disc wk home now).proof.getD []).length
    ∧ (((processDomain (some p) d disc wk home now).proof.getD []).map proofKey).Nodup := by
  have hev : (processDomain (some p) d disc wk home now).evidence
      = mergeEvidence p.evidence
        (mergeEvidence disc (mergeEvidence (wkEvidenceOf d wk) (homeEvidenceOf d home))) := rfl
  have hpr : (processDomain (some p) d disc wk home now).proof.getD []
      = (let proof0 := p.proof.getD []
         let proof1 := if wkOkOf wk then
            upsertProof proof0 ⟨ProofType.well_known, wkUrlOf d, now⟩ else proof0
         if mcOf home then
            upsertProof proof1 ⟨ProofType.homepage, homeUrlOf d, now⟩ else proof1) := rfl
  rw [hev, hpr]
  refine ⟨mergeEvidence_keeps _ _, mergeEvidence_length _ _, mergeEvidence_nodup _ _ hE,
    ?_, ?_, ?_⟩ <;>
  · dsimp only
    split_ifs with h1 h2 h2 <;>
      first
      | exact fun q hq => upsertProof_keysub _ _ _
          (upsertProof_keysub _ _ _ (List.mem_map_of_mem proofKey hq))
      | exact fun q hq => upsertProof_keysub _ _ _ (List.mem_map_of_mem proofKey hq)
      | exact fun q hq => List.mem_map_of_mem proofKey hq
      | exact le_trans (upsertProof_length _ _) (upsertProof_length _ _)
      | exact upsertProof_length _ _
      | exact le_refl _
      | exact upsertProof_nodup _ _ (upsertProof_nodup _ _ hP)
      | exact upsertProof_nodup _ _ hP
      | exact hP

/-- C6 witness: the theorem at a concrete prior record (one evidence entry,
one proof entry) and a run with both probes succeeding strongly. -/
theorem C6_witness :
    (∀ e ∈ itemC6.evidence, e ∈ (processDomain (some itemC6) "x.com" [] wkGood homeStrong "t1").evidence)
    ∧ itemC6.evidence.length ≤ (processDomain (some itemC6) "x.com" [] wkGood homeStrong "t1").evidence.length
    ∧ (((processDomain (some itemC6) "x.com" [] wkGood homeStrong "t1").evidence).map evidenceKey).Nodup
    ∧ (∀ q ∈ itemC6.proof.getD [],
        proofKey q ∈ ((processDomain (some itemC6) "x.com" [] wkGood homeStrong "t1").proof.getD []).map proofKey)
    ∧ (itemC6.proof.getD []).length ≤ ((processDomain (some itemC6) "x.com" [] wkGood homeStrong "t1").proof.getD []).length
    ∧ (((processDomain (some itemC6) "x.com" [] wkGood homeStrong "t1").proof.getD []).map proofKey).Nodup :=
  C6_theorem itemC6 "x.com" [] wkGood homeStrong "t1" (by decide) (by decide)

/-! ## Claim C7 -/

/-- C7: every existing item whose normalized domain is not selected this run
appears in the written snapshot unchanged in every field; the written item
set is a permutation of recomputed plus carried-over items, sorted by
domain; and the snapshot's `updated_at` is the fresh run timestamp. -/
theorem C7_theorem (existing : DirectoryFile) (cands : List (String × List Evidence))
    (wkP : String → WkOutcome) (homeP : String → HomeOutcome) (now : String) :
    (∀ i ∈ existing.items, normalizeDomain i.domain ∉ selectedDomains cands →
      i ∈ (runScan existing cands wkP homeP now).items)
    ∧ List.Perm ((runScan existing cands wkP homeP now).items)
        (recomputedItems existing cands wkP homeP now ++ carriedItems existing cands)
    ∧ ((runScan existing cands wkP homeP now).items).Sorted itemLe
    ∧ (runScan existing cands wkP homeP now).updated_at = now := by
  have hperm := List.perm_insertionSort itemLe
    (recomputedItems existing cands wkP homeP now ++ carriedItems existing cands)
  refine ⟨?_, hperm, List.sorted_insertionSort itemLe _, rfl⟩
  intro i hi hnot
  have hc : i ∈ carriedItems existing cands := by
    unfold carriedItems
    rw [List.mem_filter]
    exact ⟨hi, by simpa using hnot⟩
  exact hperm.mem_iff.mpr (List.mem_append_right _ hc)

/-- C7 witness: a concrete unselected item is carried into the output
verbatim, and the output carries the fresh timestamp. -/
theorem C7_witness :
    ({ baseItem with domain := "z.com" } : DirectoryItem)
        ∈ (runScan fileC7 candsA probeWkDownAll probeHomeDownAll "t1").items
    ∧ (runScan fileC7 candsA probeWkDownAll probeHomeDownAll "t1").updated_at = "t1" := by
  have h := C7_theorem fileC7 candsA probeWkDownAll probeHomeDownAll "t1"
  exact ⟨h.1 _ (by decide) (by decide), h.2.2.2⟩

/-! ## Claim C8 -/

theorem qStageStatus_sub (items : List QItem) (inp : QueryInput) :
    ∀ i ∈ qStageStatus items inp,
      i ∈ items ∧ (∀ st, inp.status = some st → i.status = st) := by
  intro i hi
  unfold qStageStatus at hi
  cases hs : inp.status with
  | none =>
    rw [hs] at hi
    exact ⟨hi, fun st hst => absurd hst (by simp)⟩
  | some st0 =>
    rw [hs] at hi
    rw [List.mem_filter] at hi
    refine ⟨hi.1, fun st hst => ?_⟩
    injection hst with hst
    rw [← hst]
    exact of_decide_eq_true hi.2

theorem qStageType_sub (items : List QItem) (inp : QueryInput) :
    ∀ i ∈ qStageType items inp,
      i ∈ items ∧ (inp.types ≠ [] → ∃ t ∈ i.type, t ∈ inp.types) := by
  intro i hi
  unfold qStageType at hi
  split_ifs at hi with hemp
  · exact ⟨hi, fun hne => absurd (List.isEmpty_iff.mp hemp) hne⟩
  · rw [List.mem_filter] at hi
    refine ⟨hi.1, fun _ => ?_⟩
    have := List.any_eq_true.mp hi.2
    obtain ⟨t, ht, hdec⟩ := this
    exact ⟨t, ht, of_decide_eq_true hdec⟩

theorem qStageConf_sub (items : List QItem) (inp : QueryInput) :
    ∀ i ∈ qStageConf items inp,
      i ∈ items ∧ (∀ m, inp.minConfidence = some m → m ≤ i.confidence) := by
  intro i hi
  unfold qStageConf at hi
  rw [List.mem_filter] at hi
  refine ⟨hi.1, fun m hm => ?_⟩
  have h2 := of_decide_eq_true hi.2
  rw [hm] at h2
  simpa using h2

theorem qStageQuery_sub (items : List QItem) (inp : QueryInput) :
    ∀ i ∈ qStageQuery items inp, i ∈ items := by
  intro i hi
  unfold qStageQuery at hi
  cases hq : inp.query with
  | none => rw [hq] at hi; exact hi
  | some q =>
    rw [hq] at hi
    have hi2 : i ∈ (if jsTrim q = "" then items
        else List.insertionSort (scoreLe (jsTrim q))
          (items.filter (fun i => decide (0 < qScore i (jsTrim q))))) := hi
    split_ifs at hi2 with ht
    · exact hi2
    · have h2 := (List.perm_insertionSort (scoreLe (jsTrim q)) _).mem_iff.mp hi2
      exact List.mem_of_mem_filter h2

/-- C8: every returned item satisfies each supplied filter; the result is
ordered by status rank ascending, then confidence descending, then
`last_seen` descending, then domain ascending; and its length is capped by
the requested limit clamped to [1, 50] (default 10). -/
theorem C8_theorem (items : List QItem) (inp : QueryInput) :
    (((runQuery items inp).length : Int) ≤ clampLimit inp.limitRaw)
    ∧ (1 ≤ clampLimit inp.limitRaw ∧ clampLimit inp.limitRaw ≤ 50 ∧ clampLimit none = 10)
    ∧ (∀ i ∈ runQuery items inp,
        (∀ st, inp.status = some st → i.status = st)
        ∧ (inp.types ≠ [] → ∃ t ∈ i.type, t ∈ inp.types)
        ∧ (∀ m, inp.minConfidence = some m → m ≤ i.confidence))
    ∧ (runQuery items inp).Sorted queryLe := by
  have hclamp : 1 ≤ clampLimit inp.limitRaw ∧ clampLimit inp.limitRaw ≤ 50 := by
    unfold clampLimit
    cases inp.limitRaw <;> simp <;> omega
  refine ⟨?_, ⟨hclamp.1, hclamp.2, rfl⟩, ?_, ?_⟩
  · have hlen : (runQuery items inp).length ≤ (clampLimit inp.limitRaw).toNat := by
      unfold runQuery
      exact List.length_take_le _ _
    have hcast : ((clampLimit inp.limitRaw).toNat : Int) = clampLimit inp.limitRaw :=
      Int.toNat_of_nonneg (by omega)
    omega
  · intro i hi
    have h1 : i ∈ List.insertionSort queryLe
        (qStageQuery (qStageConf (qStageType (qStageStatus items inp) inp) inp) inp) := by
      unfold runQuery at hi
      exact List.mem_of_mem_take hi
    have h2 := (List.perm_insertionSort queryLe _).mem_iff.mp h1
    have h3 := qStageQuery_sub _ inp i h2
    have h4 := qStageConf_sub _ inp i h3
    have h5 := qStageType_sub _ inp i h4.1
    have h6 := qStageStatus_sub items inp i h5.1
    exact ⟨h6.2, h5.2, h4.2⟩
  · unfold runQuery
    exact List.Pairwise.sublist (List.take_sublist _ _) (List.sorted_insertionSort queryLe _)

/-- C8 witness: with status, type and confidence filters supplied, a
returned item satisfies all three. -/
theorem C8_witness :
    qItemA.status = ItemStatus.verified
    ∧ (∃ t ∈ qItemA.type, t ∈ qInpW.types)
    ∧ (80 : Int) ≤ qItemA.confidence := by
  have h := (C8_theorem qItemsW qInpW).2.2.1 qItemA (by decide)
  exact ⟨h.1 ItemStatus.verified rfl, h.2.1 (by decide), h.2.2 80 rfl⟩

/-! ## Claim C10 -/

theorem findMarker_head_none {l : List Char} (h : findMarker l = none) :
    markerValueAt l = none := by
  cases l with
  | nil => rfl
  | cons c cs =>
    unfold findMarker at h
    cases hm : markerValueAt (c :: cs) with
    | some n => rw [hm] at h; exact absurd h (by simp)
    | none => rfl

theorem findMarker_tail_none {c : Char} {cs : List Char}
    (h : findMarker (c :: cs) = none) : findMarker cs = none := by
  have h0 := findMarker_head_none h
  unfold findMarker at h
  rw [h0] at h
  exact h

theorem markerValueAt_none_len {l : List Char} (h : markerValueAt l = none) :
    markerLen l = none := by
  unfold markerValueAt at h
  unfold markerLen
  cases hs : stripLit "fail_streak:".toList l with
  | none => rfl
  | some r =>
    rw [hs] at h
    cases r with
    | nil => rfl
    | cons c2 cs2 =>
      simp only at h ⊢
      by_cases hd : c2.isDigit = true
      · rw [if_pos hd] at h
        exact absurd h (by simp)
      · rw [if_neg hd]

theorem stripScanGo_no_marker (l : List Char) (h : findMarker l = none) :
    ∀ b, stripScanGo 0 b l = l := by
  induction l with
  | nil => intro b; rfl
  | cons c rest ih =>
    intro b
    have h0 : markerLen (c :: rest) = none :=
      markerValueAt_none_len (findMarker_head_none h)
    have h1 : findMarker rest = none := findMarker_tail_none h
    have ha1 : markerLen rest = none :=
      markerValueAt_none_len (findMarker_head_none h1)
    cases b with
    | true =>
      show (match (if true then markerLen (c :: rest) else none) with
        | some n => stripScanGo (n - 1) false rest
        | none =>
          if isSpaceChar c then
            match markerLen rest with
            | some n => stripScanGo n false rest
            | none => c :: stripScanGo 0 false rest
          else c :: stripScanGo 0 false rest) = c :: rest
      rw [if_pos rfl, h0, ha1]
      split_ifs with hsp <;> rw [ih h1 false]
    | false =>
      show (match (if false then markerLen (c :: rest) else none) with
        | some n => stripScanGo (n - 1) false rest
        | none =>
          if isSpaceChar c then
            match markerLen rest with
            | some n => stripScanGo n false rest
            | none => c :: stripScanGo 0 false rest
          else c :: stripScanGo 0 false rest) = c :: rest
      rw [if_neg (by simp), ha1]
      split_ifs with hsp <;> rw [ih h1 false]

/-- C10 counterexample: with `fail_streak` absent and notes
`"xfail_streak:5"`, the engine recovers streak 5 from the embedded marker,
but the persisted notes still contain the marker (it is not preceded by
whitespace or the string start, so the strip pass leaves it). -/
theorem C10_counterexample :
    (processDomain (some itemC10) "x.com" [] wkDown homeQuiet "t1").fail_streak = some 5
    ∧ (processDomain (some itemC10) "x.com" [] wkDown homeQuiet "t1").notes
        = some "xfail_streak:5"
    ∧ findMarker "xfail_streak:5".toList = some 5 := by
  decide

/-- C10 (amended): the starting streak is recovered from the first
`fail_streak:N` occurrence anywhere in the notes (default 0), but the
persisted notes only have markers removed when they sit at the start of the
notes or directly after a whitespace character (which is consumed too);
notes without any marker are passed through trimmed, becoming absent when
empty. -/
theorem C10_amended_theorem :
    (∀ p : DirectoryItem, p.fail_streak = none → ∀ s, p.notes = some s →
      getFailStreak (some p) = ((findMarker s.toList).getD 0 : Nat))
    ∧ (∀ p : DirectoryItem, p.fail_streak = none → p.notes = none →
        getFailStreak (some p) = 0)
    ∧ (∀ (prev : Option DirectoryItem) (d : String) (disc : List Evidence)
        (wk : WkOutcome) (home : HomeOutcome) (now : String),
        (processDomain prev d disc wk home now).notes
          = stripFailStreak (prev.bind (·.notes)))
    ∧ (∀ s : String, findMarker s.toList = none →
        stripFailStreak (some s) = (if jsTrim s = "" then none else some (jsTrim s)))
    ∧ stripFailStreak (some "fail_streak:3") = none
    ∧ stripFailStreak (some "keep fail_streak:7 this") = some "keep this" := by
  refine ⟨?_, ?_, ?_, ?_, by decide, by decide⟩
  · intro p h1 s h2
    simp [getFailStreak, h1, h2]
  · intro p h1 h2
    simp [getFailStreak, h1, h2]
  · intro prev d disc wk home now
    rfl
  · intro s hs
    have hred : stripFailStreak (some s)
        = (if String.mk (trimChars (stripScanGo 0 true s.toList)) = "" then none
           else some (String.mk (trimChars (stripScanGo 0 true s.toList)))) := rfl
    rw [hred, stripScanGo_no_marker s.toList hs true]
    rfl

/-- C10 witness: the amended statement applied at a record with an embedded
marker and at marker-free notes. -/
theorem C10_amended_witness :
    getFailStreak (some itemC10) = ((findMarker "xfail_streak:5".toList).getD 0 : Nat)
    ∧ stripFailStreak (some "plain note")
        = (if jsTrim "plain note" = "" then none else some (jsTrim "plain note")) :=
  ⟨C10_amended_theorem.1 itemC10 rfl "xfail_streak:5" rfl,
   C10_amended_theorem.2.2.2.1 "plain note" (by decide)⟩

/-! ## Claim C9: supporting lemmas -/

theorem mergeGo_keys_total (add : List Evidence) :
    ∀ seen, ∀ e ∈ add, evidenceKey e ∈ seen
      ∨ evidenceKey e ∈ (mergeEvidenceGo seen add).map evidenceKey := by
  induction add with
  | nil => intro seen e he; exact absurd he (by simp)
  | cons a rest ih =>
    intro seen e he
    unfold mergeEvidenceGo
    split_ifs with hmem
    · rcases List.mem_cons.mp he with rfl | he2
      · exact Or.inl hmem
      · exact ih seen e he2
    · rcases List.mem_cons.mp he with rfl | he2
      · exact Or.inr (by simp)
      · rcases ih (evidenceKey a :: seen) e he2 with h | h
        · rcases List.mem_cons.mp h with h2 | h2
          · exact Or.inr (by simp [h2])
          · exact Or.inl h2
        · exact Or.inr (by simp [h])

theorem mergeGo_none (add : List Evidence) :
    ∀ seen, (∀ e ∈ add, evidenceKey e ∈ seen) → mergeEvidenceGo seen add = [] := by
  induction add with
  | nil => intro seen _; rfl
  | cons a rest ih =>
    intro seen h
    unfold mergeEvidenceGo
    rw [if_pos (h a (by simp))]
    exact ih seen (fun e he => h e (by simp [he]))

theorem mergeEvidence_key_mem (a n : List Evidence) :
    ∀ e ∈ n, evidenceKey e ∈ (mergeEvidence a n).map evidenceKey := by
  intro e he
  unfold mergeEvidence
  rw [List.map_append]
  rcases mergeGo_keys_total n (a.map evidenceKey) e he with h | h
  · exact List.mem_append_left _ h
  · exact List.mem_append_right _ h

theorem mergeEvidence_idem (a n : List Evidence) :
    mergeEvidence (mergeEvidence a n) n = mergeEvidence a n := by
  have h : mergeEvidenceGo ((mergeEvidence a n).map evidenceKey) n = [] :=
    mergeGo_none n _ (fun e he => mergeEvidence_key_mem a n e he)
  show mergeEvidence a n ++ mergeEvidenceGo ((mergeEvidence a n).map evidenceKey) n
      = mergeEvidence a n
  rw [h, List.append_nil]

theorem specVS_idem (prevVS : Option VerificationStatus) (strong : Bool) (conf fs : Int) :
    specVerificationStatus (some (specVerificationStatus prevVS strong conf fs)) strong conf fs
      = specVerificationStatus prevVS strong conf fs := by
  unfold specVerificationStatus
  by_cases h1 : strong = true ∧ conf ≥ 80
  · rw [if_pos h1, if_pos h1]
  · rw [if_neg h1, if_neg h1]
    by_cases h2 : prevVS = some VerificationStatus.verified ∧ fs ≥ 5 ∧ strong = false
    · rw [if_pos h2, if_neg (by simp)]
      rfl
    · rw [if_neg h2]
      by_cases h3 : prevVS.getD VerificationStatus.unverified = VerificationStatus.verified
          ∧ fs ≥ 5 ∧ strong = false
      · exfalso
        apply h2
        cases hp : prevVS with
        | none =>
          rw [hp] at h3
          exact absurd h3.1 (by decide)
        | some v =>
          rw [hp] at h3
          have hv : v = VerificationStatus.verified := h3.1
          rw [hv]
          exact ⟨rfl, h3.2⟩
      · rw [if_neg (fun hc => h3 ⟨Option.some.inj hc.1, hc.2⟩)]
        rfl

theorem dropWhile_head_not (p : Char → Bool) (l : List Char) :
    ∀ c, (l.dropWhile p).head? = some c → p c = false := by
  induction l with
  | nil => intro c h; simp [List.dropWhile] at h
  | cons x xs ih =>
    intro c h
    rw [List.dropWhile_cons] at h
    split_ifs at h with hp
    · exact ih c h
    · simp only [List.head?] at h
      injection h with h2
      rw [← h2]
      exact Bool.eq_false_iff.mpr hp

theorem dropSpaces_of_no_lead (l : List Char)
    (h : ∀ c, l.head? = some c → isSpaceChar c = false) : dropSpaces l = l := by
  cases l with
  | nil => rfl
  | cons x xs =>
    unfold dropSpaces
    rw [List.dropWhile_cons, if_neg]
    simp [h x rfl]

theorem dropSpaces_idem (l : List Char) : dropSpaces (dropSpaces l) = dropSpaces l :=
  dropSpaces_of_no_lead _ (fun c h => dropWhile_head_not isSpaceChar l c h)

theorem prefix_head {l1 l2 : List Char} {c : Char} (h : l1 <+: l2)
    (hh : l1.head? = some c) : l2.head? = some c := by
  obtain ⟨t, ht⟩ := h
  cases l1 with
  | nil => simp at hh
  | cons a as =>
    rw [← ht]
    simpa using hh

theorem trimChars_idem (l : List Char) : trimChars (trimChars l) = trimChars l := by
  have h1 : dropSpaces ((trimChars l).reverse) = (trimChars l).reverse := by
    apply dropSpaces_of_no_lead
    intro c hc
    have hsuf : trimChars l <:+ (dropSpaces l.reverse).reverse := by
      unfold trimChars
      exact List.dropWhile_suffix _
    have hpre : (trimChars l).reverse <+: dropSpaces l.reverse := by
      have h4 := List.reverse_prefix.mpr hsuf
      rwa [List.reverse_reverse] at h4
    exact dropWhile_head_not isSpaceChar l.reverse c (prefix_head hpre hc)
  show dropSpaces ((dropSpaces (trimChars l).reverse).reverse) = trimChars l
  rw [h1, List.reverse_reverse]
  show dropSpaces (dropSpaces ((dropSpaces l.reverse).reverse)) = trimChars l
  exact dropSpaces_idem _

theorem stripLit_append {pat s r : List Char} (h : stripLit pat s = some r) (v : List Char) :
    stripLit pat (s ++ v) = some (r ++ v) := by
  induction pat generalizing s with
  | nil =>
    cases s <;> simp [stripLit] at h <;> simp [stripLit, h]
  | cons p ps ih =>
    cases s with
    | nil => simp [stripLit] at h
    | cons c cs =>
      simp only [stripLit] at h
      split_ifs at h with hc
      rw [List.cons_append]
      simp only [stripLit]
      rw [if_pos hc]
      exact ih h

theorem markerValueAt_append {s : List Char} (h : markerValueAt s ≠ none) (v : List Char) :
    markerValueAt (s ++ v) ≠ none := by
  unfold markerValueAt at *
  cases hs : stripLit "fail_streak:".toList s with
  | none => rw [hs] at h; simp at h
  | some r =>
    rw [hs] at h
    rw [stripLit_append hs v]
    cases r with
    | nil => simp at h
    | cons c cs =>
      simp only at h
      split_ifs at h with hd
      · rw [List.cons_append]
        simp only
        rw [if_pos hd]
        simp
      · simp at h

theorem findMarker_of_suffix {s l : List Char} (hs : s <:+ l)
    (h : markerValueAt s ≠ none) : findMarker l ≠ none := by
  induction l with
  | nil =>
    rw [List.suffix_nil.mp hs] at h
    exact absurd rfl h
  | cons c rest ih =>
    unfold findMarker
    rcases List.suffix_cons_iff.mp hs with rfl | hs2
    · cases hm : markerValueAt (c :: rest) with
      | some n => simp
      | none => exact absurd hm h
    · cases hm : markerValueAt (c :: rest) with
      | some n => simp
      | none => exact ih hs2

theorem findMarker_exists {m : List Char} (h : findMarker m ≠ none) :
    ∃ s, s <:+ m ∧ markerValueAt s ≠ none := by
  induction m with
  | nil => exact absurd rfl h
  | cons c rest ih =>
    unfold findMarker at h
    cases hm : markerValueAt (c :: rest) with
    | some n => exact ⟨c :: rest, List.suffix_refl _, by simp [hm]⟩
    | none =>
      rw [hm] at h
      obtain ⟨s, hs1, hs2⟩ := ih h
      exact ⟨s, hs1.trans (List.suffix_cons c rest), hs2⟩

theorem findMarker_trim_none {l : List Char} (h : findMarker l = none) :
    findMarker (trimChars l) = none := by
  by_contra hne
  obtain ⟨s, hs1, hs2⟩ := findMarker_exists hne
  have hinf : trimChars l <:+: l := by
    have hsuf : trimChars l <:+ (dropSpaces l.reverse).reverse := by
      unfold trimChars
      exact List.dropWhile_suffix _
    have hpre : (dropSpaces l.reverse).reverse <+: l := by
      have h2 : dropSpaces l.reverse <:+ l.reverse := List.dropWhile_suffix _
      have h3 := List.reverse_prefix.mpr h2
      rwa [List.reverse_reverse] at h3
    exact hsuf.isInfix.trans hpre.isInfix
  have hsinf : s <:+: l := hs1.isInfix.trans hinf
  obtain ⟨u, v, huv⟩ := hsinf
  have hsufl : s ++ v <:+ l := ⟨u, by rw [← List.append_assoc, huv]⟩
  exact findMarker_of_suffix hsufl (markerValueAt_append hs2 v) h

theorem stripFailStreak_no_marker (s : String) (hs : findMarker s.toList = none) :
    stripFailStreak (some s) = (if jsTrim s = "" then none else some (jsTrim s)) := by
  have hred : stripFailStreak (some s)
      = (if String.mk (trimChars (stripScanGo 0 true s.toList)) = "" then none
         else some (String.mk (trimChars (stripScanGo 0 true s.toList)))) := rfl
  rw [hred, stripScanGo_no_marker s.toList hs true]
  rfl

theorem stripFailStreak_stable (x : Option String)
    (hx : ∀ s, x = some s → findMarker s.toList = none) :
    stripFailStreak (stripFailStreak x) = stripFailStreak x := by
  cases x with
  | none => rfl
  | some s =>
    have h1 := stripFailStreak_no_marker s (hx s rfl)
    rw [h1]
    by_cases ht : jsTrim s = ""
    · rw [if_pos ht]
      rfl
    · rw [if_neg ht]
      have h2 : findMarker (jsTrim s).toList = none := by
        show findMarker (trimChars s.toList) = none
        exact findMarker_trim_none (hx s rfl)
      rw [stripFailStreak_no_marker _ h2]
      have h3 : jsTrim (jsTrim s) = jsTrim s := by
        show String.mk (trimChars (String.mk (trimChars s.toList)).toList)
            = String.mk (trimChars s.toList)
        rw [show (String.mk (trimChars s.toList)).toList = trimChars s.toList from rfl]
        rw [trimChars_idem]
      rw [h3, if_neg ht]

theorem upsertReplace_self {l : List ProofEntry} {e : ProofEntry}
    (hmem : e ∈ l) (hnd : (l.map proofKey).Nodup) : upsertReplace l e = l := by
  induction l with
  | nil => exact absurd hmem (by simp)
  | cons p ps ih =>
    simp only [List.map_cons, List.nodup_cons] at hnd
    unfold upsertReplace
    split_ifs with hm
    · rcases List.mem_cons.mp hmem with rfl | hmem2
      · rfl
      · exfalso
        apply hnd.1
        have hk : proofKey p = proofKey e := by
          unfold proofKey
          rw [hm.1, hm.2]
        rw [hk]
        exact List.mem_map_of_mem proofKey hmem2
    · rcases List.mem_cons.mp hmem with rfl | hmem2
      · exact absurd ⟨rfl, rfl⟩ hm
      · rw [ih hmem2 hnd.2]

theorem mem_upsertReplace (l : List ProofEntry) (e : ProofEntry) :
    e ∈ upsertReplace l e := by
  induction l with
  | nil => simp [upsertReplace]
  | cons p ps ih =>
    unfold upsertReplace
    split_ifs with hm
    · simp
    · simp [ih]

theorem mem_upsertProof (l : List ProofEntry) (e : ProofEntry) : e ∈ upsertProof l e := by
  unfold upsertProof
  exact (List.perm_insertionSort proofLe _).mem_iff.mpr (mem_upsertReplace l e)

theorem mem_upsertReplace_of_ne (l : List ProofEntry) (e q : ProofEntry)
    (hq : q ∈ l) (hne : proofKey q ≠ proofKey e) : q ∈ upsertReplace l e := by
  induction l with
  | nil => exact absurd hq (by simp)
  | cons p ps ih =>
    unfold upsertReplace
    split_ifs with hm
    · rcases List.mem_cons.mp hq with rfl | h2
      · exfalso
        apply hne
        unfold proofKey
        rw [hm.1, hm.2]
      · simp [h2]
    · rcases List.mem_cons.mp hq with rfl | h2
      · simp
      · simp [ih h2]

theorem mem_upsertProof_of_ne (l : List ProofEntry) (e q : ProofEntry)
    (hq : q ∈ l) (hne : proofKey q ≠ proofKey e) : q ∈ upsertProof l e := by
  unfold upsertProof
  exact (List.perm_insertionSort proofLe _).mem_iff.mpr (mem_upsertReplace_of_ne l e q hq hne)

theorem upsertProof_sorted (l : List ProofEntry) (e : ProofEntry) :
    (upsertProof l e).Sorted proofLe :=
  List.sorted_insertionSort proofLe _

theorem upsertProof_self {l : List ProofEntry} {e : ProofEntry}
    (hmem : e ∈ l) (hnd : (l.map proofKey).Nodup) (hsort : l.Sorted proofLe) :
    upsertProof l e = l := by
  unfold upsertProof
  rw [upsertReplace_self hmem hnd]
  exact hsort.insertionSort_eq

theorem proofPipelineL_idem (p0 : List ProofEntry) (d now : String)
    (wk : WkOutcome) (home : HomeOutcome) (hnd : (p0.map proofKey).Nodup) :
    proofPipelineL (proofPipelineL p0 d now wk home) d now wk home
      = proofPipelineL p0 d now wk home := by
  have hkey : proofKey (⟨ProofType.well_known, wkUrlOf d, now⟩ : ProofEntry)
      ≠ proofKey (⟨ProofType.homepage, homeUrlOf d, now⟩ : ProofEntry) := by
    intro hcontra
    unfold proofKey at hcontra
    simp at hcontra
  unfold proofPipelineL
  dsimp only
  by_cases hw : wkOkOf wk = true <;> by_cases hm2 : mcOf home = true <;>
    simp only [hw, hm2, if_true, if_false, Bool.false_eq_true, reduceIte]
  · have hndQ : ((upsertProof (upsertProof p0 ⟨ProofType.well_known, wkUrlOf d, now⟩)
        ⟨ProofType.homepage, homeUrlOf d, now⟩).map proofKey).Nodup :=
      upsertProof_nodup _ _ (upsertProof_nodup _ _ hnd)
    have hsQ := upsertProof_sorted (upsertProof p0 ⟨ProofType.well_known, wkUrlOf d, now⟩)
      (⟨ProofType.homepage, homeUrlOf d, now⟩ : ProofEntry)
    have hmemW : (⟨ProofType.well_known, wkUrlOf d, now⟩ : ProofEntry)
        ∈ upsertProof (upsertProof p0 ⟨ProofType.well_known, wkUrlOf d, now⟩)
          ⟨ProofType.homepage, homeUrlOf d, now⟩ :=
      mem_upsertProof_of_ne _ _ _ (mem_upsertProof _ _) hkey
    have hmemH : (⟨ProofType.homepage, homeUrlOf d, now⟩ : ProofEntry)
        ∈ upsertProof (upsertProof p0 ⟨ProofType.well_known, wkUrlOf d, now⟩)
          ⟨ProofType.homepage, homeUrlOf d, now⟩ :=
      mem_upsertProof _ _
    rw [upsertProof_self hmemW hndQ hsQ, upsertProof_self hmemH hndQ hsQ]
  · exact upsertProof_self (mem_upsertProof _ _) (upsertProof_nodup _ _ hnd)
      (upsertProof_sorted _ _)
  · exact upsertProof_self (mem_upsertProof _ _) (upsertProof_nodup _ _ hnd)
      (upsertProof_sorted _ _)

theorem processDomain_idem (prev : Option DirectoryItem) (d : String) (disc : List Evidence)
    (wk : WkOutcome) (home : HomeOutcome) (now : String)
    (hpr : wkOkOf wk = true ∨ home.ok2xx = true)
    (hnotes : ∀ s, (prev.bind (·.notes)) = some s → findMarker s.toList = none)
    (hproof : (((prev.bind (·.proof)).getD []).map proofKey).Nodup) :
    processDomain (some (processDomain prev d disc wk home now)) d disc wk home now
      = processDomain prev d disc wk home now := by
  have h_ev : runEvidence (some (processDomain prev d disc wk home now)) d disc wk home
      = runEvidence prev d disc wk home := by
    show mergeEvidence
        (mergeEvidence ((prev.map (·.evidence)).getD [])
          (mergeEvidence disc (mergeEvidence (wkEvidenceOf d wk) (homeEvidenceOf d home))))
        (mergeEvidence disc (mergeEvidence (wkEvidenceOf d wk) (homeEvidenceOf d home)))
      = mergeEvidence ((prev.map (·.evidence)).getD [])
          (mergeEvidence disc (mergeEvidence (wkEvidenceOf d wk) (homeEvidenceOf d home)))
    exact mergeEvidence_idem _ _
  have hget : getFailStreak (some (processDomain prev d disc wk home now))
      = newFailStreak prev wk home := rfl
  have h_fs : newFailStreak (some (processDomain prev d disc wk home now)) wk home
      = newFailStreak prev wk home := by
    unfold newFailStreak
    dsimp only
    by_cases hst : (wkOkOf wk || mcOf home) = true
    · rw [if_pos hst, if_pos hst]
    · have hcf : (!(wkOkOf wk) && !home.ok2xx) = false := by
        rcases hpr with h | h <;> simp [h]
      rw [if_neg hst, if_neg hst, hcf]
      simp only [Bool.false_eq_true, if_false]
      rw [hget]
      unfold newFailStreak
      dsimp only
      rw [if_neg hst, hcf]
      simp
  have h_dom : (processDomain (some (processDomain prev d disc wk home now)) d disc wk home now).domain
      = (processDomain prev d disc wk home now).domain := rfl
  have h_name : (processDomain (some (processDomain prev d disc wk home now)) d disc wk home now).name
      = (processDomain prev d disc wk home now).name := rfl
  have h_type : (processDomain (some (processDomain prev d disc wk home now)) d disc wk home now).type
      = (processDomain prev d disc wk home now).type := by
    show (if (computeTypes (runEvidence (some (processDomain prev d disc wk home now)) d disc wk home)
          (mcOf home) (otherOf home)).length > 0
        then computeTypes (runEvidence (some (processDomain prev d disc wk home now)) d disc wk home)
          (mcOf home) (otherOf home)
        else ((some (processDomain prev d disc wk home now)).map (·.type)).getD [])
      = (processDomain prev d disc wk home now).type
    rw [h_ev]
    by_cases htl : (computeTypes (runEvidence prev d disc wk home) (mcOf home) (otherOf home)).length > 0
    · rw [if_pos htl]
      show computeTypes (runEvidence prev d disc wk home) (mcOf home) (otherOf home)
          = (if (computeTypes (runEvidence prev d disc wk home) (mcOf home) (otherOf home)).length > 0
            then computeTypes (runEvidence prev d disc wk home) (mcOf home) (otherOf home)
            else (prev.map (·.type)).getD [])
      rw [if_pos htl]
    · rw [if_neg htl]
      rfl
  have h_conf : (processDomain (some (processDomain prev d disc wk home now)) d disc wk home now).confidence
      = (processDomain prev d disc wk home now).confidence := by
    show computeConfidence (runEvidence (some (processDomain prev d disc wk home now)) d disc wk home)
        (mcOf home) (otherOf home)
      = computeConfidence (runEvidence prev d disc wk home) (mcOf home) (otherOf home)
    rw [h_ev]
  have h_status : (processDomain (some (processDomain prev d disc wk home now)) d disc wk home now).status
      = (processDomain prev d disc wk home now).status := by
    show statusFromConfidence
        (computeConfidence (runEvidence (some (processDomain prev d disc wk home now)) d disc wk home)
          (mcOf home) (otherOf home))
        (wkOkOf wk || mcOf home)
        (newFailStreak (some (processDomain prev d disc wk home now)) wk home)
      = statusFromConfidence
        (computeConfidence (runEvidence prev d disc wk home) (mcOf home) (otherOf home))
        (wkOkOf wk || mcOf home)
        (newFailStreak prev wk home)
    rw [h_ev, h_fs]
  have h_vs : (processDomain (some (processDomain prev d disc wk home now)) d disc wk home now).verification_status
      = (processDomain prev d disc wk home now).verification_status := by
    show some (verificationStatusFrom (some (processDomain prev d disc wk home now))
        (wkOkOf wk || mcOf home)
        (computeConfidence (runEvidence (some (processDomain prev d disc wk home now)) d disc wk home)
          (mcOf home) (otherOf home))
        (newFailStreak (some (processDomain prev d disc wk home now)) wk home))
      = some (verificationStatusFrom prev (wkOkOf wk || mcOf home)
        (computeConfidence (runEvidence prev d disc wk home) (mcOf home) (otherOf home))
        (newFailStreak prev wk home))
    rw [h_ev, h_fs]
    congr 1
    have hbind : ((some (processDomain prev d disc wk home now)).bind (·.verification_status))
        = some (verificationStatusFrom prev (wkOkOf wk || mcOf home)
          (computeConfidence (runEvidence prev d disc wk home) (mcOf home) (otherOf home))
          (newFailStreak prev wk home)) := rfl
    rw [vsFrom_spec (some (processDomain prev d disc wk home now)), hbind, vsFrom_spec prev]
    exact specVS_idem _ _ _ _
  have h_vm : (processDomain (some (processDomain prev d disc wk home now)) d disc wk home now).verification_method
      = (processDomain prev d disc wk home now).verification_method := by
    show verificationMethodFrom (some (processDomain prev d disc wk home now)) (wkOkOf wk) (mcOf home)
      = verificationMethodFrom prev (wkOkOf wk) (mcOf home)
    unfold verificationMethodFrom
    by_cases hw : wkOkOf wk = true
    · rw [if_pos hw, if_pos hw]
    · rw [if_neg hw, if_neg hw]
      by_cases hm2 : mcOf home = true
      · rw [if_pos hm2, if_pos hm2]
      · rw [if_neg hm2, if_neg hm2]
        show verificationMethodFrom prev (wkOkOf wk) (mcOf home) = prev.bind (·.verification_method)
        unfold verificationMethodFrom
        rw [if_neg hw, if_neg hm2]
  have h_proof : (processDomain (some (processDomain prev d disc wk home now)) d disc wk home now).proof
      = (processDomain prev d disc wk home now).proof := by
    show some (proofPipelineL (((some (processDomain prev d disc wk home now)).bind (·.proof)).getD [])
        d now wk home)
      = some (proofPipelineL ((prev.bind (·.proof)).getD []) d now wk home)
    have hq0 : ((some (processDomain prev d disc wk home now)).bind (·.proof)).getD []
        = proofPipelineL ((prev.bind (·.proof)).getD []) d now wk home := rfl
    rw [hq0, proofPipelineL_idem _ _ _ _ _ hproof]
  have h_lvs : (processDomain (some (processDomain prev d disc wk home now)) d disc wk home now).last_verified_success
      = (processDomain prev d disc wk home now).last_verified_success := by
    show (if (wkOkOf wk || mcOf home) = true then some now
        else (some (processDomain prev d disc wk home now)).bind (·.last_verified_success))
      = (processDomain prev d disc wk home now).last_verified_success
    by_cases hst : (wkOkOf wk || mcOf home) = true
    · rw [if_pos hst]
      show some now = (if (wkOkOf wk || mcOf home) = true then some now
          else prev.bind (·.last_verified_success))
      rw [if_pos hst]
    · rw [if_neg hst]
      rfl
  have h_fs2 : (processDomain (some (processDomain prev d disc wk home now)) d disc wk home now).fail_streak
      = (processDomain prev d disc wk home now).fail_streak := by
    show some (newFailStreak (some (processDomain prev d disc wk home now)) wk home)
      = some (newFailStreak prev wk home)
    rw [h_fs]
  have h_ev2 : (processDomain (some (processDomain prev d disc wk home now)) d disc wk home now).evidence
      = (processDomain prev d disc wk home now).evidence := by
    show runEvidence (some (processDomain prev d disc wk home now)) d disc wk home
      = runEvidence prev d disc wk home
    exact h_ev
  have h_lchk : (processDomain (some (processDomain prev d disc wk home now)) d disc wk home now).last_checked
      = (processDomain prev d disc wk home now).last_checked := rfl
  have h_ls : (processDomain (some (processDomain prev d disc wk home now)) d disc wk home now).last_seen
      = (processDomain prev d disc wk home now).last_seen := by
    show (if (wkOkOf wk || mcOf home || otherOf home) = true then now
        else ((some (processDomain prev d disc wk home now)).map (·.last_seen)).getD now)
      = (processDomain prev d disc wk home now).last_seen
    by_cases hsc : (wkOkOf wk || mcOf home || otherOf home) = true
    · rw [if_pos hsc]
      show now = (if (wkOkOf wk || mcOf home || otherOf home) = true then now
          else (prev.map (·.last_seen)).getD now)
      rw [if_pos hsc]
    · rw [if_neg hsc]
      rfl
  have h_sp : (processDomain (some (processDomain prev d disc wk home now)) d disc wk home now).sponsored
      = (processDomain prev d disc wk home now).sponsored := rfl
  have h_va : (processDomain (some (processDomain prev d disc wk home now)) d disc wk home now).verification_available
      = (processDomain prev d disc wk home now).verification_available := rfl
  have h_notes : (processDomain (some (processDomain prev d disc wk home now)) d disc wk home now).notes
      = (processDomain prev d disc wk home now).notes := by
    show stripFailStreak (stripFailStreak (prev.bind (·.notes)))
      = stripFailStreak (prev.bind (·.notes))
    exact stripFailStreak_stable _ hnotes
  exact DirectoryItem.ext h_dom h_name h_type h_conf h_status h_vs h_vm h_proof h_lvs h_fs2
    h_ev2 h_lchk h_ls h_sp h_va h_notes

theorem lookupLast_none (k : String) (pairs : List (String × DirectoryItem))
    (h : ∀ p ∈ pairs, p.1 ≠ k) : lookupLast k pairs = none := by
  induction pairs with
  | nil => rfl
  | cons p rest ih =>
    obtain ⟨k2, v⟩ := p
    unfold lookupLast
    rw [ih (fun q hq => h q (List.mem_cons_of_mem _ hq))]
    exact if_neg (h (k2, v) (List.mem_cons_self _ _))

theorem lookupLast_unique (k : String) (v : DirectoryItem)
    (pairs : List (String × DirectoryItem)) (hmem : (k, v) ∈ pairs)
    (huniq : ∀ p ∈ pairs, p.1 = k → p = (k, v)) :
    lookupLast k pairs = some v := by
  induction pairs with
  | nil => exact absurd hmem (by simp)
  | cons p rest ih =>
    obtain ⟨k2, w⟩ := p
    unfold lookupLast
    by_cases hr : (k, v) ∈ rest
    · rw [ih hr (fun q hq hq2 => huniq q (List.mem_cons_of_mem _ hq) hq2)]
    · have hnone : lookupLast k rest = none := by
        apply lookupLast_none
        intro q hq hq2
        have hqv := huniq q (List.mem_cons_of_mem _ hq) hq2
        rw [hqv] at hq
        exact hr hq
      rw [hnone]
      rcases List.mem_cons.mp hmem with heq | h2
      · have e1 : k = k2 := congrArg Prod.fst heq
        have e2 : v = w := congrArg Prod.snd heq
        rw [if_pos e1.symm, ← e2]
      · exact absurd h2 hr

theorem lookupLast_mem (k : String) (pairs : List (String × DirectoryItem))
    (v : DirectoryItem) (h : lookupLast k pairs = some v) : v ∈ pairs.map Prod.snd := by
  induction pairs with
  | nil => simp [lookupLast] at h
  | cons p rest ih =>
    obtain ⟨k2, w⟩ := p
    unfold lookupLast at h
    cases hr : lookupLast k rest with
    | some v2 =>
      rw [hr] at h
      injection h with h2
      rw [h2] at hr
      exact List.mem_cons_of_mem _ (ih hr)
    | none =>
      rw [hr] at h
      split_ifs at h with hk
      · injection h with h2
        rw [← h2]
        exact List.mem_cons_self _ _

theorem selectedDomains_fix (C : List (String × List Evidence))
    (hKeys : ∀ p ∈ C, normalizeDomain p.1 = p.1) :
    ∀ d ∈ selectedDomains C, normalizeDomain d = d := by
  intro d hd
  unfold selectedDomains at hd
  have h1 := List.mem_of_mem_take hd
  have h2 := (List.perm_insertionSort strLe _).mem_iff.mp h1
  have h3 := List.mem_of_mem_filter h2
  obtain ⟨k, hk, hkd⟩ := List.mem_map.mp h3
  obtain ⟨p, hp, hpk⟩ := List.mem_map.mp hk
  have hfix := hKeys p hp
  rw [hpk] at hfix
  rw [← hkd, hfix, hfix]

theorem selectedDomains_nodup (C : List (String × List Evidence))
    (hKeys : ∀ p ∈ C, normalizeDomain p.1 = p.1)
    (hNodup : (C.map Prod.fst).Nodup) : (selectedDomains C).Nodup := by
  unfold selectedDomains
  apply List.Nodup.sublist (List.take_sublist _ _)
  rw [List.Perm.nodup_iff (List.perm_insertionSort strLe _)]
  apply List.Nodup.filter
  have hmapid : (C.map Prod.fst).map normalizeDomain = C.map Prod.fst := by
    rw [List.map_map]
    have h2 : ∀ p ∈ C, (normalizeDomain ∘ Prod.fst) p = Prod.fst p := fun p hp => hKeys p hp
    rw [List.map_congr_left h2]
  rw [hmapid]
  exact hNodup

theorem sorted_perm_eq : ∀ {l1 l2 : List DirectoryItem}, List.Perm l1 l2 →
    l1.Sorted itemLe → l2.Sorted itemLe → (l1.map (·.domain)).Nodup → l1 = l2 := by
  intro l1
  induction l1 with
  | nil =>
    intro l2 hp _ _ _
    exact hp.nil_eq
  | cons a t1 ih =>
    intro l2 hp hs1 hs2 hnd
    cases l2 with
    | nil =>
      have := hp.eq_nil
      exact absurd this (by simp)
    | cons b t2 =>
      have hab : a = b := by
        by_contra hne
        have hain : a ∈ b :: t2 := hp.mem_iff.mp (List.mem_cons_self _ _)
        have hbin : b ∈ a :: t1 := hp.mem_iff.mpr (List.mem_cons_self _ _)
        have ha2 : a ∈ t2 := by
          rcases List.mem_cons.mp hain with h | h
          · exact absurd h hne
          · exact h
        have hb1 : b ∈ t1 := by
          rcases List.mem_cons.mp hbin with h | h
          · exact absurd h.symm hne
          · exact h
        have h1 : itemLe a b := List.rel_of_sorted_cons hs1 b hb1
        have h2 : itemLe b a := List.rel_of_sorted_cons hs2 a ha2
        have hdom : a.domain = b.domain := le_antisymm h1 h2
        simp only [List.map_cons, List.nodup_cons] at hnd
        apply hnd.1
        rw [hdom]
        exact List.mem_map_of_mem _ hb1
      subst hab
      have hpt : List.Perm t1 t2 := hp.cons_inv
      have htl := ih hpt hs1.of_cons hs2.of_cons
        (by simp only [List.map_cons, List.nodup_cons] at hnd; exact hnd.2)
      rw [htl]

/-- C9 counterexample: one prior item with `fail_streak = 0` (below every
threshold), both probes failing at the transport level on both passes:
the first pass writes `fail_streak = 1`, the second writes 2, so the second
output differs from the first. -/
theorem C9_counterexample :
    runScan (runScan fileC9 candsA probeWkDownAll probeHomeDownAll "t1")
        candsA probeWkDownAll probeHomeDownAll "t1"
      ≠ runScan fileC9 candsA probeWkDownAll probeHomeDownAll "t1" := by
  decide

/-- C9 (amended): running the merge twice with identical simulated probe
results, an identical clock, prior items with numeric fail streaks below all
thresholds, marker-free notes, deduplicated proof keys and distinct domains,
and with normalized, distinct candidate keys, yields byte-identical output
on the second pass PROVIDED every selected domain had at least one probe
return a usable response (a strong success also suffices); a selected domain
with both probes failing at the transport level increments its fail streak
each pass and breaks idempotence. -/
theorem C9_amended_theorem (F : DirectoryFile) (C : List (String × List Evidence))
    (wkP : String → WkOutcome) (homeP : String → HomeOutcome) (now : String)
    (hKeys : ∀ p ∈ C, normalizeDomain p.1 = p.1)
    (hNodup : (C.map Prod.fst).Nodup)
    (hDomains : (F.items.map (·.domain)).Nodup)
    (hFS : ∀ i ∈ F.items, ∃ k : Int, i.fail_streak = some k ∧ k < 3)
    (hNotes : ∀ i ∈ F.items, ∀ s, i.notes = some s → findMarker s.toList = none)
    (hProof : ∀ i ∈ F.items, ((i.proof.getD []).map proofKey).Nodup)
    (hProbes : ∀ d ∈ selectedDomains C,
      wkOkOf (wkP d) = true ∨ (homeP d).ok2xx = true) :
    runScan (runScan F C wkP homeP now) C wkP homeP now
      = runScan F C wkP homeP now := by
  have hpairs_snd : (F.items.map (fun i => (normalizeDomain i.domain, i))).map Prod.snd
      = F.items := by
    rw [List.map_map]
    exact List.map_id _
  have hrec : recomputedItems (runScan F C wkP homeP now) C wkP homeP now
      = recomputedItems F C wkP homeP now := by
    unfold recomputedItems
    apply List.map_congr_left
    intro d hd
    have hfix := selectedDomains_fix C hKeys d hd
    have hmemF1 : processDomain
        (lookupLast d (F.items.map (fun i => (normalizeDomain i.domain, i)))) d
        ((lookupFirst d C).getD []) (wkP d) (homeP d) now
        ∈ (runScan F C wkP homeP now).items := by
      apply (List.perm_insertionSort itemLe _).mem_iff.mpr
      apply List.mem_append_left
      unfold recomputedItems
      exact List.mem_map_of_mem _ hd
    have hlook2 : lookupLast d
        ((runScan F C wkP homeP now).items.map (fun i => (normalizeDomain i.domain, i)))
        = some (processDomain
            (lookupLast d (F.items.map (fun i => (normalizeDomain i.domain, i)))) d
            ((lookupFirst d C).getD []) (wkP d) (homeP d) now) := by
      apply lookupLast_unique
      · apply List.mem_map.mpr
        refine ⟨_, hmemF1, ?_⟩
        show (normalizeDomain d, _) = _
        rw [hfix]
      · intro p hp hp1
        obtain ⟨i, hiF1, rfl⟩ := List.mem_map.mp hp
        have hi2 : i ∈ recomputedItems F C wkP homeP now ++ carriedItems F C :=
          (List.perm_insertionSort itemLe _).mem_iff.mp hiF1
        rcases List.mem_append.mp hi2 with hirec | hicar
        · obtain ⟨d2, hd2, rfl⟩ := List.mem_map.mp hirec
          have hfix2 := selectedDomains_fix C hKeys d2 hd2
          have hd2d : d2 = d := by
            have : normalizeDomain d2 = d := hp1
            rw [hfix2] at this
            exact this
          subst hd2d
          show (normalizeDomain d2, _) = _
          rw [hfix2]
        · exfalso
          have hpred := (List.mem_filter.mp hicar).2
          have hnotin : normalizeDomain i.domain ∉ selectedDomains C :=
            of_decide_eq_true hpred
          have hp1b : normalizeDomain i.domain = d := hp1
          rw [hp1b] at hnotin
          exact hnotin hd
    rw [hlook2]
    apply processDomain_idem
    · exact hProbes d hd
    · intro s hs
      cases hlk : lookupLast d (F.items.map (fun i => (normalizeDomain i.domain, i))) with
      | none => rw [hlk] at hs; exact absurd hs (by simp)
      | some i =>
        rw [hlk] at hs
        have hiF : i ∈ F.items := by
          have := lookupLast_mem _ _ _ hlk
          rwa [hpairs_snd] at this
        exact hNotes i hiF s hs
    · cases hlk : lookupLast d (F.items.map (fun i => (normalizeDomain i.domain, i))) with
      | none => simp
      | some i =>
        have hiF : i ∈ F.items := by
          have := lookupLast_mem _ _ _ hlk
          rwa [hpairs_snd] at this
        exact hProof i hiF
  have hrecdom : (recomputedItems F C wkP homeP now).map (·.domain) = selectedDomains C := by
    unfold recomputedItems
    rw [List.map_map]
    calc (selectedDomains C).map _ = (selectedDomains C).map id :=
          List.map_congr_left (fun d _ => rfl)
      _ = selectedDomains C := List.map_id _
  have hnd1 : ((recomputedItems F C wkP homeP now ++ carriedItems F C).map (·.domain)).Nodup := by
    rw [List.map_append, List.nodup_append]
    refine ⟨?_, ?_, ?_⟩
    · rw [hrecdom]
      exact selectedDomains_nodup C hKeys hNodup
    · exact List.Nodup.sublist ((List.filter_sublist _).map _) hDomains
    · intro x hx1 hx2
      rw [hrecdom] at hx1
      obtain ⟨i, hicar, hid⟩ := List.mem_map.mp hx2
      have hpred := (List.mem_filter.mp hicar).2
      have hnotin : normalizeDomain i.domain ∉ selectedDomains C :=
        of_decide_eq_true hpred
      apply hnotin
      rw [hid, selectedDomains_fix C hKeys x hx1]
      exact hx1
  have hcarp : List.Perm (carriedItems (runScan F C wkP homeP now) C) (carriedItems F C) := by
    have hp1 := (List.perm_insertionSort itemLe
        (recomputedItems F C wkP homeP now ++ carriedItems F C)).filter
      (fun i => decide (normalizeDomain i.domain ∉ selectedDomains C))
    have hrecnil : (recomputedItems F C wkP homeP now).filter
        (fun i => decide (normalizeDomain i.domain ∉ selectedDomains C)) = [] := by
      rw [List.filter_eq_nil]
      intro i hi
      obtain ⟨d2, hd2, rfl⟩ := List.mem_map.mp hi
      simp only [decide_eq_true_eq, not_not]
      show normalizeDomain d2 ∈ selectedDomains C
      rw [selectedDomains_fix C hKeys d2 hd2]
      exact hd2
    have hcarid : (carriedItems F C).filter
        (fun i => decide (normalizeDomain i.domain ∉ selectedDomains C))
        = carriedItems F C := by
      apply List.filter_eq_self.mpr
      intro i hi
      exact (List.mem_filter.mp hi).2
    rw [List.filter_append, hrecnil, List.nil_append, hcarid] at hp1
    exact hp1
  have hfinal : List.insertionSort itemLe
      (recomputedItems F C wkP homeP now ++ carriedItems (runScan F C wkP homeP now) C)
      = List.insertionSort itemLe
        (recomputedItems F C wkP homeP now ++ carriedItems F C) := by
    have hpp : List.Perm
        (List.insertionSort itemLe
          (recomputedItems F C wkP homeP now ++ carriedItems (runScan F C wkP homeP now) C))
        (recomputedItems F C wkP homeP now ++ carriedItems F C) :=
      (List.perm_insertionSort _ _).trans (hcarp.append_left _)
    apply sorted_perm_eq
    · exact hpp.trans (List.perm_insertionSort _ _).symm
    · exact List.sorted_insertionSort _ _
    · exact List.sorted_insertionSort _ _
    · exact (hpp.map (·.domain)).nodup_iff.mpr (by
        exact (List.Perm.nodup_iff (List.Perm.map _ (List.Perm.refl _))).mpr hnd1)
  have hgoal : runScan (runScan F C wkP homeP now) C wkP homeP now
      = ⟨now, List.insertionSort itemLe
          (recomputedItems (runScan F C wkP homeP now) C wkP homeP now
            ++ carriedItems (runScan F C wkP homeP now) C)⟩ := rfl
  rw [hgoal, hrec, hfinal]
  rfl

/-- C9 witness: the amended theorem at a concrete snapshot with one selected
domain whose homepage probe returns a 2xx. -/
theorem C9_amended_witness :
    runScan (runScan fileC9 candsA probeWkDownAll probeHomeQuietAll "t1")
        candsA probeWkDownAll probeHomeQuietAll "t1"
      = runScan fileC9 candsA probeWkDownAll probeHomeQuietAll "t1" :=
  C9_amended_theorem fileC9 candsA probeWkDownAll probeHomeQuietAll "t1"
    (by decide) (by decide) (by decide)
    (fun i hi => by
      rw [List.mem_singleton.mp hi]
      exact ⟨0, rfl, by decide⟩)
    (fun i hi s hs => by
      rw [List.mem_singleton.mp hi] at hs
      have hn : itemC9.notes = none := rfl
      rw [hn] at hs
      exact absurd hs (by simp))
    (by decide) (by decide)

end Windrose
